import Mathlib

/-!
Verification development for the `array-allocators` crate: a fixed-capacity
linked-list (variable-size) allocator and a slab (fixed-slot) allocator.

The definitions below are a shallow embedding of `src/linked_list.rs` and
`src/slab.rs`:
* machine integers (`usize`) are modelled as `Nat` (allocator arithmetic never
  overflows for the index values the claims concern);
* the backing array `[Block; N]` is a `List` of the same record type, indexed
  through a total read `getBlock` (out-of-range reads, which panic in Rust,
  return a zeroed block) and updated with `List.set` (out-of-range writes,
  which panic in Rust, are dropped);
* the two `loop`s in `Allocator::allocate` and `Wrapper::drop` are fuelled
  recursions; both loops mutate state only on the iteration in which they
  `break`, and on invariant-satisfying states they walk a strictly ascending
  chain, so fuel `data.length + 1` never runs out there;
* the mutex is erased: every claim concerns the state as observed under a
  single lock acquisition, so operations are plain state transformers.
-/

set_option maxRecDepth 20000

namespace ArrayAllocators

/-- Free-run record of the linked-list engine (`Block` in `linked_list.rs`):
`size` is the run length in cells and `next` the index of the next free run. -/
structure Block where
  size : Nat
  next : Option Nat
deriving DecidableEq, Repr

/-- The guarded interior of the linked-list allocator
(`InnerAllocator<N>` in `linked_list.rs`): the free-list head and the cell
array.  The capacity `N` is `data.length`. -/
structure LLState where
  head : Option Nat
  data : List Block
deriving DecidableEq, Repr

/-- Total read of the cell array, `allocator.data[i]`.  In-range reads agree
with Rust; out-of-range reads (a panic in Rust) return a zeroed block. -/
def getBlock (data : List Block) (i : Nat) : Block :=
  data.getD i ⟨0, none⟩

/-- Fresh allocator of capacity `N`: `InnerAllocator::default` /
`InnerAllocator::init` zero the array, then for `N > 0` set `head = Some(0)`
and `data[0] = Block { size: N, next: None }`. -/
def llInit (N : Nat) : LLState :=
  if 0 < N then
    { head := some 0, data := (List.replicate N ⟨0, none⟩).set 0 ⟨N, none⟩ }
  else
    { head := none, data := List.replicate N ⟨0, none⟩ }

/-- The `loop` inside `Allocator::allocate` (the `Ordering::Greater` arm):
walks `next_opt` down the free list looking for the first run of size at
least `blocks`.  Note that the `Equal` and `Less` arms of this loop assign
`allocator.head` (exactly as the source does), not the predecessor's `next`.
Fuel exhaustion returns a miss with the state untouched; the loop mutates
nothing before it breaks, so this is conservative. -/
def llAllocateLoop (s : LLState) (blocks : Nat) : Option Nat → Nat → LLState × Option (Nat × Nat)
  | _, 0 => (s, none)
  | none, _ => (s, none)
  | some next, fuel + 1 =>
    match compare blocks (getBlock s.data next).size with
    | .eq =>
      ({ s with head := (getBlock s.data next).next }, some (next, blocks))
    | .lt =>
      let newIndex := next + blocks
      ({ head := some newIndex,
         data := s.data.set newIndex
           ⟨(getBlock s.data next).size - blocks, (getBlock s.data next).next⟩ },
       some (next, blocks))
    | .gt => llAllocateLoop s blocks (getBlock s.data next).next fuel

/-- Model of `Allocator::allocate(blocks)`: returns the updated state and, on success,
the handle data `(index, size)` of the returned `Wrapper`. -/
def llAllocate (s : LLState) (blocks : Nat) : LLState × Option (Nat × Nat) :=
  if blocks = 0 then (s, some (0, 0)) else
  match s.head with
  | none => (s, none)
  | some next =>
    match compare blocks (getBlock s.data next).size with
    | .eq =>
      ({ s with head := (getBlock s.data next).next }, some (next, blocks))
    | .lt =>
      let newIndex := next + blocks
      ({ head := some newIndex,
         data := s.data.set newIndex
           ⟨(getBlock s.data next).size - blocks, (getBlock s.data next).next⟩ },
       some (next, blocks))
    | .gt => llAllocateLoop s blocks (getBlock s.data next).next (s.data.length + 1)

/-- The `loop` in `Wrapper::drop` (the `Ordering::Greater` arm): walks the
free list from `current`, releasing the range `[index, index + size)` with
coalescing.  Every arm except the walking one breaks immediately after its
writes, so the recursion passes the state unchanged and the final arm
performs the writes, in source order. -/
def llDeallocLoop (s : LLState) (index size : Nat) : Nat → Nat → LLState
  | _, 0 => s
  | current, fuel + 1 =>
    let currentEnd := current + (getBlock s.data current).size
    match (getBlock s.data current).next with
    | some nextIndex =>
      if currentEnd = index then
        if nextIndex = index + size then
          -- merge with both neighbours
          let b1 : Block := ⟨(getBlock s.data current).size, (getBlock s.data nextIndex).next⟩
          let d1 := s.data.set current b1
          let b2 : Block :=
            ⟨(getBlock d1 current).size + size + (getBlock d1 nextIndex).size,
             (getBlock d1 current).next⟩
          { s with data := d1.set current b2 }
        else
          -- merge with the left neighbour
          let b1 : Block := ⟨(getBlock s.data current).size + size, (getBlock s.data current).next⟩
          { s with data := s.data.set current b1 }
      else
        if nextIndex = index + size then
          -- merge with the right neighbour
          let b1 : Block := ⟨size + (getBlock s.data nextIndex).size, (getBlock s.data nextIndex).next⟩
          let d1 := s.data.set index b1
          let b2 : Block := ⟨(getBlock d1 current).size, some index⟩
          { s with data := d1.set current b2 }
        else if index + size < nextIndex then
          -- insert between current and next
          let b1 : Block := ⟨size, some nextIndex⟩
          let d1 := s.data.set index b1
          let b2 : Block := ⟨(getBlock d1 current).size, some index⟩
          { s with data := d1.set current b2 }
        else
          llDeallocLoop s index size nextIndex fuel
    | none =>
      if currentEnd = index then
        -- merge with the left neighbour, no successor
        let b1 : Block := ⟨(getBlock s.data current).size + size, (getBlock s.data current).next⟩
        { s with data := s.data.set current b1 }
      else
        -- append at the end of the list
        let d1 := s.data.set index ⟨size, none⟩
        let b2 : Block := ⟨(getBlock d1 current).size, some index⟩
        { s with data := d1.set current b2 }

/-- Model of `Wrapper::drop` for a handle `(index, size)` of the linked-list engine:
release the range `[index, index + size)` back to the free list, coalescing
with address-adjacent neighbours. -/
def llDealloc (s : LLState) (index size : Nat) : LLState :=
  if size = 0 then s else
  match s.head with
  | some head =>
    match compare (index + size) head with
    | .eq =>
      { head := some index,
        data := s.data.set index
          ⟨size + (getBlock s.data head).size, (getBlock s.data head).next⟩ }
    | .lt =>
      { head := some index, data := s.data.set index ⟨size, s.head⟩ }
    | .gt => llDeallocLoop s index size head (s.data.length + 1)
  | none =>
    { head := some index, data := s.data.set index ⟨size, none⟩ }

/-- Walk of the free list: `ChainFrom data o l` states that starting from the
optional index `o` and repeatedly following `next`, one reads exactly the
runs `l` (as `(index, size)` pairs) and then reaches `None`. -/
inductive ChainFrom (data : List Block) : Option Nat → List (Nat × Nat) → Prop
  | nil : ChainFrom data none []
  | cons {i : Nat} {l : List (Nat × Nat)} :
      i < data.length →
      ChainFrom data (getBlock data i).next l →
      ChainFrom data (some i) ((i, (getBlock data i).size) :: l)

/-- Executable free-list walk with fuel: returns the `(index, size)` runs read
from `o` by following `next`, or `none` if the walk does not terminate within
`fuel` steps. -/
def llChainF (data : List Block) : Option Nat → Nat → Option (List (Nat × Nat))
  | none, _ => some []
  | some _, 0 => none
  | some i, fuel + 1 =>
    (llChainF data (getBlock data i).next fuel).map
      (fun l => (i, (getBlock data i).size) :: l)

/-- The free list of a state, walked from `head` with always-sufficient fuel
(on invariant-satisfying states the chain has at most `data.length` runs). -/
def llChain (s : LLState) : Option (List (Nat × Nat)) :=
  llChainF s.data s.head (s.data.length + 1)

/-- Interval disjointness of the runs `l` from the range `[h.1, h.1 + h.2)`. -/
def HDisj (l : List (Nat × Nat)) (h : Nat × Nat) : Prop :=
  ∀ p ∈ l, p.1 + p.2 ≤ h.1 ∨ h.1 + h.2 ≤ p.1

/-- Well-formed run list over a backing array of `NB` cells: all runs are
non-empty and in range, and consecutive runs are separated by a gap (strictly
ascending indices with no adjacency). -/
def RunsWf (NB : Nat) (l : List (Nat × Nat)) : Prop :=
  (∀ p ∈ l, 0 < p.2 ∧ p.1 + p.2 ≤ NB) ∧
  List.Chain' (fun a b : Nat × Nat => a.1 + a.2 < b.1) l

/-- Disjointness of two handle ranges (trivially true when either is empty,
which matches the zero-size placeholder `Wrapper` whose drop is a no-op). -/
def RangesDisj (a b : Nat × Nat) : Prop :=
  0 < a.2 → 0 < b.2 → a.1 + a.2 ≤ b.1 ∨ b.1 + b.2 ≤ a.1

/-- Reachable configurations of the linked-list allocator: the allocator state
together with the multiset of live handles, under any interleaving of
`allocate` calls and handle drops starting from a fresh allocator of capacity
`N`. -/
inductive LLReach (N : Nat) : LLState → List (Nat × Nat) → Prop
  | init : LLReach N (llInit N) []
  | allocSome {s : LLState} {hs : List (Nat × Nat)} (n : Nat) {h : Nat × Nat} :
      LLReach N s hs →
      (llAllocate s n).2 = some h →
      LLReach N (llAllocate s n).1 (h :: hs)
  | allocNone {s : LLState} {hs : List (Nat × Nat)} (n : Nat) :
      LLReach N s hs →
      (llAllocate s n).2 = none →
      LLReach N (llAllocate s n).1 hs
  | dealloc {s : LLState} (pre post : List (Nat × Nat)) (h : Nat × Nat) :
      LLReach N s (pre ++ h :: post) →
      LLReach N (llDealloc s h.1 h.2) (pre ++ post)

/-! ## Slab engine (`src/slab.rs`)

The slab cell is the union `Block<T> { empty: Option<usize>, full: ManuallyDrop<T> }`
whose discriminant is implicit (a cell is `empty` exactly when it is on the
free chain).  We model it as a sum: `full` does not record the stored value,
because every claim about the slab concerns indices only. -/

/-- A slab cell: either occupied (`full` branch of the union) or free with the
index of the next free slot (`empty` branch). -/
inductive SlabBlock where
  | full : SlabBlock
  | empty : Option Nat → SlabBlock
deriving DecidableEq, Repr

/-- The guarded interior of the slab allocator (`InnerAllocator<T>` plus the
trailing cell array it addresses): free-chain head, capacity (`size` field),
and the cells. -/
structure SlabState where
  head : Option Nat
  size : Nat
  data : List SlabBlock
deriving DecidableEq, Repr

/-- Total read of a slab cell.  Out-of-range reads (a panic in Rust) return
`full`. -/
def getSlot (data : List SlabBlock) (i : Nat) : SlabBlock :=
  data.getD i .full

/-- Read of the `empty` branch of the union at slot `i`
(`data[i].empty` in the source).  In Rust this read is meaningful only while
`i` is on the free chain; on an occupied slot it would reinterpret the stored
value's bytes.  The model returns `none` in that (never reachable) case. -/
def readEmpty (data : List SlabBlock) (i : Nat) : Option Nat :=
  match getSlot data i with
  | .empty nx => nx
  | .full => none

/-- Fresh slab of capacity `N` (`ArrayAllocator::new` zeroes the region, then
`InnerAllocator::init` links every slot to its successor and terminates the
chain at slot `N - 1`; for `N = 0` only `head = None` is written).  The zeroed
cell is modelled as `empty none`; for `N > 0` every cell is overwritten by
`init`. -/
def slabInit (N : Nat) : SlabState :=
  if 0 < N then
    { head := some 0,
      size := N,
      data := ((List.range (N - 1)).foldl
                 (fun d i => d.set i (.empty (some (i + 1))))
                 (List.replicate N (.empty none))).set (N - 1) (.empty none) }
  else
    { head := none, size := N, data := List.replicate N (.empty none) }

/-- Model of `Allocator::allocate(x)` of the slab: pop the head of the free chain,
overwrite that slot with the value (the `full` branch), and return its index
as the handle; a miss when the chain is empty. -/
def slabAllocate (s : SlabState) : SlabState × Option Nat :=
  match s.head with
  | none => (s, none)
  | some index =>
    ({ s with head := readEmpty s.data index, data := s.data.set index .full },
     some index)

/-- The `loop` in the slab `Wrapper::drop`: walk the free chain from `current`
until the successor is `None` or exceeds the freed index, then splice the
freed slot in (writes in source order: first re-tag the freed slot, then
repoint `current`). -/
def slabDeallocLoop (s : SlabState) (index : Nat) : Nat → Nat → SlabState
  | _, 0 => s
  | current, fuel + 1 =>
    match readEmpty s.data current with
    | none =>
      let d1 := s.data.set index (.empty none)
      { s with data := d1.set current (.empty (some index)) }
    | some next =>
      if index < next then
        let d1 := s.data.set index (.empty (some next))
        { s with data := d1.set current (.empty (some index)) }
      else
        slabDeallocLoop s index next fuel

/-- The slab `Wrapper::drop` for the handle at `index`: drop the stored value
in place and splice the slot back into the free chain in address order. -/
def slabDealloc (s : SlabState) (index : Nat) : SlabState :=
  match s.head with
  | some head =>
    if index < head then
      { s with data := s.data.set index (.empty (some head)), head := some index }
    else
      slabDeallocLoop s index head (s.data.length + 1)
  | none =>
    { s with head := some index, data := s.data.set index (.empty none) }

/-- One call of `WrapperIterator::next`: the iterator state is the pair
`(free, used)`; the inner `loop` either emits a handle for `used`, stops at
capacity, or skips a free slot and advances `free` along the chain.  The
inner loop runs at most one chain-advance per emitted gap, so fuel
`size + 2` is always sufficient on reachable states. -/
def slabIterNext (s : SlabState) : Option Nat × Nat → Nat → (Option Nat × Nat) × Option Nat
  | st, 0 => (st, none)
  | (free, used), fuel + 1 =>
    let f := free.getD s.size
    if used < f then ((free, used + 1), some used)
    else if used = s.size then ((free, used), none)
    else slabIterNext s (readEmpty s.data f, f + 1) fuel

/-- Run the iterator to exhaustion, collecting the emitted handle indices.
`fuel` bounds the number of `next` calls. -/
def slabIterCollect (s : SlabState) : Option Nat × Nat → Nat → List Nat
  | _, 0 => []
  | st, fuel + 1 =>
    match slabIterNext s st (s.size + 2) with
    | (st2, some i) => i :: slabIterCollect s st2 fuel
    | (_, none) => []

/-- Walk of the slab free chain: starting from the optional index `o` and
following each free slot's `empty` field, one reads exactly the indices `l`
(each slot being tagged free) and then reaches `None`. -/
inductive SChainFrom (data : List SlabBlock) : Option Nat → List Nat → Prop
  | nil : SChainFrom data none []
  | cons {i : Nat} {nx : Option Nat} {l : List Nat} :
      i < data.length →
      getSlot data i = .empty nx →
      SChainFrom data nx l →
      SChainFrom data (some i) (i :: l)

/-- Executable free-chain walk with fuel. -/
def slabChainF (data : List SlabBlock) : Option Nat → Nat → Option (List Nat)
  | none, _ => some []
  | some _, 0 => none
  | some i, fuel + 1 =>
    (slabChainF data (readEmpty data i) fuel).map (fun l => i :: l)

/-- The free chain of a slab state, walked from `head` with always-sufficient
fuel. -/
def slabChain (s : SlabState) : Option (List Nat) :=
  slabChainF s.data s.head (s.data.length + 1)

/-- Reachable configurations of the slab allocator: the state together with
the list of live handle indices, under any interleaving of `allocate` calls
and handle drops starting from a fresh slab of capacity `N`. -/
inductive SlabReach (N : Nat) : SlabState → List Nat → Prop
  | init : SlabReach N (slabInit N) []
  | allocSome {s : SlabState} {hs : List Nat} {i : Nat} :
      SlabReach N s hs →
      (slabAllocate s).2 = some i →
      SlabReach N (slabAllocate s).1 (i :: hs)
  | allocNone {s : SlabState} {hs : List Nat} :
      SlabReach N s hs →
      (slabAllocate s).2 = none →
      SlabReach N (slabAllocate s).1 hs
  | dealloc {s : SlabState} (pre post : List Nat) (i : Nat) :
      SlabReach N s (pre ++ i :: post) →
      SlabReach N (slabDealloc s i) (pre ++ post)

/-- Inductive invariant of the linked-list engine relating the state to the
multiset of live handles: the free list is a terminating walk of well-formed
runs (non-empty, in range, strictly ascending with gaps) disjoint from every
live handle's range, handles are in range, and handle ranges are pairwise
disjoint. -/
structure LLInv (s : LLState) (hs : List (Nat × Nat)) : Prop where
  chain : ∃ l, ChainFrom s.data s.head l ∧ RunsWf s.data.length l ∧
    ∀ h ∈ hs, 0 < h.2 → HDisj l h
  hbound : ∀ h ∈ hs, 0 < h.2 → h.1 + h.2 ≤ s.data.length
  hdisj : List.Pairwise RangesDisj hs

/-- Inductive invariant of the slab engine relating the state to the live
handles: the stored capacity equals the cell count, the free chain is a
terminating, strictly ascending, in-range walk, every live handle's slot is
occupied, and no two live handles share a slot. -/
structure SlabInv (s : SlabState) (hs : List Nat) : Prop where
  len_eq : s.data.length = s.size
  chain : ∃ l, SChainFrom s.data s.head l ∧ List.Chain' (fun a b => a < b) l ∧
    ∀ x ∈ l, x < s.size
  handles : ∀ h ∈ hs, h < s.size ∧ getSlot s.data h = .full
  hnodup : List.Pairwise (fun a b => a ≠ b) hs

/-! ## Typed slice view and `Slice::resize` (`src/linked_list.rs`)

`Slice<N, T>` is a wrapper `(index, size)` plus a logical length `len` in
elements of `T`.  Element contents live in the same backing region as the
free-list records; we model the payload as a byte-addressed memory
`mem : Nat → τ` alongside the block records (cell `i` starts at byte
`i * szB`, an element occupies `szT` bytes).  Metadata writes of
`allocate`/`drop` hit only cells outside every live handle's range, so they
never alias the bytes the resize claim observes; the split model is therefore
observationally faithful for those claims. -/

/-- A slice view over the linked-list allocator: the wrapper's cell `index`
and `size` (in blocks), plus the logical length in elements of `T`. -/
structure SliceV where
  index : Nat
  size : Nat
  len : Nat
deriving DecidableEq, Repr

/-- Rust `usize::div_ceil`. -/
def rustDivCeil (a b : Nat) : Nat :=
  a / b + if a % b = 0 then 0 else 1

/-- The `szT` bytes of element `j` of a slice whose data starts at byte
address `base`. -/
def elemBytes {τ : Type} (szT : Nat) (mem : Nat → τ) (base j : Nat) : List τ :=
  (List.range szT).map (fun b => mem (base + j * szT + b))

/-- Model of `Slice::resize(len)` over a `T` of `szT` bytes and a block size of `szB`
bytes: no-op when the length is unchanged; otherwise allocate
`div_ceil(len * szT, szB)` blocks (a miss aborts, keeping everything),
copy `min(len, self.len)` elements from the old region to the new one
(`std::ptr::copy`, i.e. memmove reading the original bytes), install the new
wrapper and release the old one. -/
def llResize {τ : Type} (szT szB : Nat) (s : LLState) (mem : Nat → τ) (sl : SliceV)
    (len : Nat) : (LLState × (Nat → τ) × SliceV) × Option Unit :=
  if sl.len = len then ((s, mem, sl), some ()) else
  let blocks := rustDivCeil (len * szT) szB
  match llAllocate s blocks with
  | (s1, none) => ((s1, mem, sl), none)
  | (s1, some (i, bsz)) =>
    let n := min len sl.len
    let mem1 : Nat → τ := fun a =>
      if i * szB ≤ a ∧ a < i * szB + n * szT then
        mem (sl.index * szB + (a - i * szB))
      else mem a
    ((llDealloc s1 sl.index sl.size, mem1, ⟨i, bsz, len⟩), some ())

/-! ## Concrete traces used by the scenario and counterexample claims -/

/-- Capacity-4 trace `allocate(1); allocate(1); drop the first handle`: the
resulting free list is `[(0,1), (2,2)]` with the handle `(1,1)` live. -/
def llBugBase : LLState :=
  llDealloc (llAllocate (llAllocate (llInit 4) 1).1 1).1 0 1

/-- The state right after `allocate(2)` on `llBugBase` (the first fitting run
sits at the second position of the free list). -/
def llBugAfter : LLState :=
  (llAllocate llBugBase 2).1

/-- Whether cell `c` lies inside one of the ranges `[p.1, p.1 + p.2)` of `l`
(used both for free runs and for live handle ranges). -/
def llCovers (l : List (Nat × Nat)) (c : Nat) : Prop :=
  ∃ p ∈ l, p.1 ≤ c ∧ c < p.1 + p.2

instance (l : List (Nat × Nat)) (c : Nat) : Decidable (llCovers l c) :=
  List.decidableBEx _ l

/-- Capacity-4 coalescing trace of the spec scenario: allocate four 1-cell
handles, then drop them in the order a, c, b, d. -/
def llCoalA : LLState := (llAllocate (llInit 4) 1).1
def llCoalB : LLState := (llAllocate llCoalA 1).1
def llCoalC : LLState := (llAllocate llCoalB 1).1
def llCoalD : LLState := (llAllocate llCoalC 1).1
def llCoal1 : LLState := llDealloc llCoalD 0 1
def llCoal2 : LLState := llDealloc llCoal1 2 1
def llCoal3 : LLState := llDealloc llCoal2 1 1
def llCoal4 : LLState := llDealloc llCoal3 3 1

/-- Slab of capacity 10 with all ten slots allocated (in order 0..9). -/
def slabFull10 : SlabState :=
  (List.range 10).foldl (fun s _ => (slabAllocate s).1) (slabInit 10)

/-- State of `slabFull10` after dropping the handles at indices 1, 3 and 5, in that
order. -/
def slabC8 : SlabState :=
  slabDealloc (slabDealloc (slabDealloc slabFull10 1) 3) 5

/-- Concrete resize instance (witness input): a capacity-5 allocator after a
2-block slice was allocated at index 0. -/
def sW9 : LLState := (llAllocate (llInit 5) 2).1

/-- Concrete byte memory for the resize witness. -/
def memW9 : Nat → Nat := fun a => a + 100

/-- The live 2-element slice at index 0 for the resize witness
(one byte per element, one byte per block). -/
def slW9 : SliceV := ⟨0, 2, 2⟩

/-! ## Theorems -/

/-- Reading any cell other than the written one is unchanged by `set`. -/
theorem getD_set_ne {α : Type} (data : List α) (d : α) (i j : Nat) (b : α)
    (hne : j ≠ i) : (data.set i b).getD j d = data.getD j d := by
  simp [List.getD_eq_getElem?_getD, List.getElem?_set_ne (Ne.symm hne)]

/-- Reading the written cell after an in-range `set` yields the new value. -/
theorem getD_set_self {α : Type} (data : List α) (d : α) (i : Nat) (b : α)
    (hlt : i < data.length) : (data.set i b).getD i d = b := by
  simp [List.getD_eq_getElem?_getD, List.getElem?_set_eq_of_lt b hlt]

theorem getBlock_set_ne (data : List Block) (i j : Nat) (b : Block)
    (hne : j ≠ i) : getBlock (data.set i b) j = getBlock data j :=
  getD_set_ne data _ i j b hne

theorem getBlock_set_self (data : List Block) (i : Nat) (b : Block)
    (hlt : i < data.length) : getBlock (data.set i b) i = b :=
  getD_set_self data _ i b hlt

theorem getSlot_set_ne (data : List SlabBlock) (i j : Nat) (b : SlabBlock)
    (hne : j ≠ i) : getSlot (data.set i b) j = getSlot data j :=
  getD_set_ne data _ i j b hne

theorem getSlot_set_self (data : List SlabBlock) (i : Nat) (b : SlabBlock)
    (hlt : i < data.length) : getSlot (data.set i b) i = b :=
  getD_set_self data _ i b hlt

/-- Characterization of the initialization loop of the slab
(`for i in 0..(size - 1) { data[i] = Block { empty: Some(i + 1) } }`). -/
theorem slabInit_fold_spec (m : Nat) (d : List SlabBlock) :
    ((List.range m).foldl (fun d i => d.set i (.empty (some (i + 1)))) d).length
        = d.length ∧
    (∀ j, j < m → j < d.length →
      getSlot ((List.range m).foldl (fun d i => d.set i (.empty (some (i + 1)))) d) j
        = .empty (some (j + 1))) ∧
    (∀ j, m ≤ j →
      getSlot ((List.range m).foldl (fun d i => d.set i (.empty (some (i + 1)))) d) j
        = getSlot d j) := by
  induction m with
  | zero => exact ⟨rfl, fun j h _ => absurd h (Nat.not_lt_zero j), fun _ _ => rfl⟩
  | succ m ih =>
    rw [List.range_succ, List.foldl_append]
    obtain ⟨ihlen, ihlt, ihge⟩ := ih
    refine ⟨by simp [ihlen], ?_, ?_⟩
    · intro j hj hjd
      rcases Nat.lt_succ_iff_lt_or_eq.mp hj with hlt | heq
      · rw [List.foldl_cons, List.foldl_nil,
          getSlot_set_ne _ _ _ _ (Nat.ne_of_lt hlt), ihlt j hlt hjd]
      · subst heq
        rw [List.foldl_cons, List.foldl_nil,
          getSlot_set_self _ _ _ (by rw [ihlen]; exact hjd)]
    · intro j hj
      rw [List.foldl_cons, List.foldl_nil,
        getSlot_set_ne _ _ _ _ (by omega), ihge j (by omega)]

/-- The backing array of a fresh slab has exactly `N` cells. -/
theorem slabInit_length (N : Nat) : (slabInit N).data.length = N := by
  by_cases h : 0 < N
  · simp only [slabInit, if_pos h, List.length_set]
    rw [(slabInit_fold_spec (N - 1) (List.replicate N (.empty none))).1]
    exact List.length_replicate ..
  · simp [slabInit, if_neg h]

/-- Walking a ladder-shaped chain (`slot j ↦ Some (j+1)` below `N - 1`,
`slot (N-1) ↦ None`) from `i` enumerates `i, i+1, …, N-1`. -/
theorem slabChainF_ladder (data : List SlabBlock) (N : Nat)
    (hslots : ∀ j, j + 1 < N → getSlot data j = .empty (some (j + 1)))
    (hlast : 0 < N → getSlot data (N - 1) = .empty none) :
    ∀ (k i fuel : Nat), i + k = N → 0 < k → k < fuel →
      slabChainF data (some i) fuel = some (List.range' i k) := by
  intro k
  induction k with
  | zero => intro i fuel _ h0; exact absurd h0 (by omega)
  | succ k ih =>
    intro i fuel hik _ hfuel
    obtain ⟨f, rfl⟩ : ∃ f, fuel = f + 1 := ⟨fuel - 1, by omega⟩
    by_cases hk : 0 < k
    · have hnext : readEmpty data i = some (i + 1) := by
        rw [readEmpty, hslots i (by omega)]
      simp only [slabChainF, hnext, ih (i + 1) f (by omega) hk (by omega), Option.map_some]
      rfl
    · have hk0 : k = 0 := by omega
      subst hk0
      have hi : i = N - 1 := by omega
      have hnext : readEmpty data i = none := by
        rw [readEmpty, hi, hlast (by omega)]
      simp only [slabChainF, hnext]
      rfl

/-- C10: a fresh slab of capacity `N` has `head = Some 0` when `N > 0`, with
slot `i` holding `next_free = Some (i+1)` for `i < N - 1` and slot `N - 1`
holding `next_free = None`; for `N = 0` the head is `None`.  Consequently the
initial free chain enumerates all `N` slots in ascending order. -/
theorem slab_init_characterization (N : Nat) :
    (slabInit N).size = N ∧
    (0 < N → (slabInit N).head = some 0 ∧
      (∀ i, i + 1 < N → getSlot (slabInit N).data i = .empty (some (i + 1))) ∧
      getSlot (slabInit N).data (N - 1) = .empty none) ∧
    (N = 0 → (slabInit N).head = none) ∧
    slabChain (slabInit N) = some (List.range N) := by
  by_cases h : 0 < N
  · obtain ⟨flen, flt, fge⟩ := slabInit_fold_spec (N - 1) (List.replicate N (.empty none))
    have hlen : (List.replicate N (SlabBlock.empty none)).length = N :=
      List.length_replicate ..
    have hslots : ∀ i, i + 1 < N → getSlot (slabInit N).data i = .empty (some (i + 1)) := by
      intro i hi
      simp only [slabInit, if_pos h]
      rw [getSlot_set_ne _ _ _ _ (by omega), flt i (by omega) (by omega)]
    have hlast : getSlot (slabInit N).data (N - 1) = .empty none := by
      simp only [slabInit, if_pos h]
      rw [getSlot_set_self _ _ _ (by rw [flen, hlen]; omega)]
    have hh : (slabInit N).head = some 0 := by simp [slabInit, if_pos h]
    refine ⟨by simp [slabInit, if_pos h], fun _ => ⟨hh, hslots, hlast⟩,
      fun h0 => absurd h0 (by omega), ?_⟩
    have hchain := slabChainF_ladder (slabInit N).data N hslots (fun _ => hlast)
      N 0 ((slabInit N).data.length + 1) (by omega) h (by rw [slabInit_length]; omega)
    simp only [slabChain, hh, hchain, List.range_eq_range']
  · have h0 : N = 0 := by omega
    subst h0
    exact ⟨rfl, fun hlt => absurd hlt (by omega), fun _ => rfl, rfl⟩

/-- Witness for C10 at `N = 3`: the hypothesis `0 < 3` is discharged and the
head, slot contents and chain are evaluated concretely. -/
theorem slab_init_characterization_witness :
    0 < 3 ∧
    ((slabInit 3).head = some 0 ∧
      (∀ i, i + 1 < 3 → getSlot (slabInit 3).data i = .empty (some (i + 1))) ∧
      getSlot (slabInit 3).data (3 - 1) = .empty none) ∧
    slabChain (slabInit 3) = some (List.range 3) :=
  ⟨by decide, (slab_init_characterization 3).2.1 (by decide),
    (slab_init_characterization 3).2.2.2⟩

/-- Helper for C2/C3: `llBugBase` (free list `[(0,1), (2,2)]`, live handle
`(1,1)`) is reachable on a fresh capacity-4 allocator by
`allocate(1); allocate(1); drop(first handle)`. -/
theorem llBugBase_reachable : LLReach 4 llBugBase [(1, 1)] := by
  have e1 : (llAllocate (llInit 4) 1).2 = some (0, 1) := by decide
  have r1 : LLReach 4 (llAllocate (llInit 4) 1).1 [(0, 1)] :=
    LLReach.allocSome 1 LLReach.init e1
  have e2 : (llAllocate (llAllocate (llInit 4) 1).1 1).2 = some (1, 1) := by decide
  have r2 : LLReach 4 (llAllocate (llAllocate (llInit 4) 1).1 1).1 [(1, 1), (0, 1)] :=
    LLReach.allocSome 1 r1 e2
  exact LLReach.dealloc [(1, 1)] [] (0, 1) r2

/-- C1 (code bug): on the free list `[(0,1), (2,2)]` the first run fitting a
2-block request is `(2,2)`, at a non-head position.  The `Ordering::Equal`
arm of the allocation loop assigns `head = data[next].next` instead of
repointing the fitting run's predecessor, so the preceding free run `(0,1)`
is no longer reachable from `head`: the walk after the call is empty, not
`[(0,1)]` as the claim requires. -/
theorem allocate_interior_fit_discards_preceding_runs :
    llChain llBugBase = some [(0, 1), (2, 2)] ∧
    (llAllocate llBugBase 2).2 = some (2, 2) ∧
    (llAllocate llBugBase 2).1.head = none ∧
    llChain (llAllocate llBugBase 2).1 = some [] := by
  decide

/-- C2 (code bug): the configuration reached by
`allocate(1); allocate(1); drop(first); allocate(2)` on a fresh capacity-4
allocator has live handles `(1,1)` and `(2,2)` and an empty free list, so
cell `0` is covered neither by a free run reachable from `head` nor by a live
handle range — the partition of `[0, 4)` fails. -/
theorem reachable_configuration_with_uncovered_cell :
    LLReach 4 llBugAfter [(2, 2), (1, 1)] ∧
    llBugAfter.data.length = 4 ∧
    llChain llBugAfter = some [] ∧
    ¬ llCovers [(2, 2), (1, 1)] 0 := by
  refine ⟨?_, by decide, by decide, by decide⟩
  have e3 : (llAllocate llBugBase 2).2 = some (2, 2) := by decide
  exact LLReach.allocSome 2 llBugBase_reachable e3

/-- C3 (code bug): from the invariant-satisfying, reachable state
`llBugBase` (free list `[(0,1), (2,2)]`), `allocate(2)` succeeds with the
handle `(2,2)`, but dropping that handle yields the free list `[(2,2)]`
instead of restoring `[(0,1), (2,2)]`: the run `(0,1)` was leaked by the
allocation, so the round-trip does not restore the prior state. -/
theorem allocate_dealloc_roundtrip_failure :
    LLReach 4 llBugBase [(1, 1)] ∧
    llChain llBugBase = some [(0, 1), (2, 2)] ∧
    (llAllocate llBugBase 2).2 = some (2, 2) ∧
    llChain (llDealloc (llAllocate llBugBase 2).1 2 2) = some [(2, 2)] ∧
    (llDealloc (llAllocate llBugBase 2).1 2 2).head ≠ llBugBase.head := by
  exact ⟨llBugBase_reachable, by decide, by decide, by decide, by decide⟩

/-- C4: on a fresh capacity-4 allocator the four 1-cell allocations return
handles at indices 0, 1, 2, 3; dropping them in the order a, c, b, d walks
the free list through `[(0,1)]`, `[(0,1), (2,1)]`, the three-way merge
`[(0,3)]`, and finally the single run `[(0,4)]`. -/
theorem coalesce_middle_scenario :
    (llAllocate (llInit 4) 1).2 = some (0, 1) ∧
    (llAllocate llCoalA 1).2 = some (1, 1) ∧
    (llAllocate llCoalB 1).2 = some (2, 1) ∧
    (llAllocate llCoalC 1).2 = some (3, 1) ∧
    llChain llCoal1 = some [(0, 1)] ∧
    llChain llCoal2 = some [(0, 1), (2, 1)] ∧
    llChain llCoal3 = some [(0, 3)] ∧
    llChain llCoal4 = some [(0, 4)] := by
  decide

/-- The allocation loop mutates nothing on a miss: every arm that returns
`none` passes the entry state through unchanged. -/
theorem llAllocateLoop_miss (s : LLState) (blocks : Nat) :
    ∀ (fuel : Nat) (o : Option Nat),
      (llAllocateLoop s blocks o fuel).2 = none →
      (llAllocateLoop s blocks o fuel).1 = s := by
  intro fuel
  induction fuel with
  | zero => intro o _; cases o <;> rfl
  | succ n ih =>
    intro o hmiss
    cases o with
    | none => rfl
    | some i =>
      simp only [llAllocateLoop] at hmiss ⊢
      cases hc : compare blocks (getBlock s.data i).size with
      | eq => rw [hc] at hmiss; simp at hmiss
      | lt => rw [hc] at hmiss; simp at hmiss
      | gt => rw [hc] at hmiss; exact ih _ hmiss

/-- A failed `allocate` leaves the state unchanged (helper form, shared by
the reachability invariant). -/
theorem llAllocate_miss_eq (s : LLState) (n : Nat)
    (hmiss : (llAllocate s n).2 = none) : (llAllocate s n).1 = s := by
  by_cases h0 : n = 0
  · simp [llAllocate, h0] at hmiss
  · simp only [llAllocate, if_neg h0] at hmiss ⊢
    cases hh : s.head with
    | none => rfl
    | some i =>
      rw [hh] at hmiss
      dsimp only at hmiss ⊢
      cases hc : compare n (getBlock s.data i).size with
      | eq => rw [hc] at hmiss; simp at hmiss
      | lt => rw [hc] at hmiss; simp at hmiss
      | gt => rw [hc] at hmiss; exact llAllocateLoop_miss s n _ _ hmiss

/-- C5: a failed `allocate` leaves the allocator exactly as it was on entry —
the head and every cell of the backing array are unchanged. -/
theorem allocate_miss_leaves_state_unchanged (s : LLState) (n : Nat)
    (hmiss : (llAllocate s n).2 = none) : (llAllocate s n).1 = s :=
  llAllocate_miss_eq s n hmiss

/-- Witness for C5: on a fresh zero-capacity allocator, `allocate(1)` misses
and the state is unchanged. -/
theorem allocate_miss_leaves_state_unchanged_witness :
    (llAllocate (llInit 0) 1).2 = none ∧ (llAllocate (llInit 0) 1).1 = llInit 0 :=
  ⟨by decide, allocate_miss_leaves_state_unchanged (llInit 0) 1 (by decide)⟩

/-- C8: with all ten slots of a capacity-10 slab allocated and the handles at
indices 1, 3, 5 dropped in that order, the free chain is `1 → 3 → 5`; the
iterator starts at `free = head = Some 1` and emits handles for exactly the
indices 0, 2, 4, 6, 7, 8, 9, in order, then returns `None` (the collection
below is run with surplus fuel, so the list ends because `next` returned
`None`). -/
theorem slab_iterator_scenario :
    slabC8.head = some 1 ∧
    slabChain slabC8 = some [1, 3, 5] ∧
    slabIterCollect slabC8 (slabC8.head, 0) 100 = [0, 2, 4, 6, 7, 8, 9] := by
  decide

/-- C9: `Slice::resize(k)` with `k` distinct from the current length: if the
internal allocation misses, the call reports the miss and the slice record
and every byte of memory are unchanged; if it succeeds, the first
`min(k, len)` elements of the resulting slice coincide with the first
`min(k, len)` elements of the original slice. -/
theorem slice_resize_miss_keeps_and_success_copies {τ : Type} (szT szB : Nat)
    (s : LLState) (mem : Nat → τ) (sl : SliceV) (k : Nat) (hk : k ≠ sl.len) :
    ((llResize szT szB s mem sl k).2 = none →
      (llResize szT szB s mem sl k).1.2.1 = mem ∧
      (llResize szT szB s mem sl k).1.2.2 = sl) ∧
    ((llResize szT szB s mem sl k).2 = some () →
      ∀ j, j < min k sl.len →
        elemBytes szT (llResize szT szB s mem sl k).1.2.1
            ((llResize szT szB s mem sl k).1.2.2.index * szB) j
          = elemBytes szT mem (sl.index * szB) j) := by
  have hne : ¬ sl.len = k := fun h => hk h.symm
  simp only [llResize, if_neg hne]
  rcases ha : llAllocate s (rustDivCeil (k * szT) szB) with ⟨s1, o⟩
  cases o with
  | none =>
    refine ⟨fun _ => ⟨rfl, rfl⟩, fun hsome => ?_⟩
    simp at hsome
  | some p =>
    rcases p with ⟨i, bsz⟩
    refine ⟨fun hnone => by simp at hnone, fun _ => ?_⟩
    intro j hj
    have hjn : j + 1 ≤ min k sl.len := hj
    unfold elemBytes
    refine List.map_congr_left ?_
    intro b hb
    have hb2 : b < szT := List.mem_range.mp hb
    have harith : j * szT + b < min k sl.len * szT := by
      calc j * szT + b < j * szT + szT := by omega
        _ = (j + 1) * szT := by rw [Nat.succ_mul]
        _ ≤ min k sl.len * szT := Nat.mul_le_mul_right szT hjn
    have hcond : i * szB ≤ i * szB + j * szT + b ∧
        i * szB + j * szT + b < i * szB + min k sl.len * szT := by omega
    simp only [dif_pos, if_pos hcond]
    exact congrArg mem (by omega)

/-- Witness for C9: one byte per element and per block, a live 2-element
slice at index 0 on a capacity-5 allocator, resized to 3 (which succeeds:
the free run `(2,3)` fits exactly); the hypothesis `3 ≠ 2` is discharged
concretely. -/
theorem slice_resize_witness :
    (3 : Nat) ≠ slW9.len ∧
    (((llResize 1 1 sW9 memW9 slW9 3).2 = none →
      (llResize 1 1 sW9 memW9 slW9 3).1.2.1 = memW9 ∧
      (llResize 1 1 sW9 memW9 slW9 3).1.2.2 = slW9) ∧
    ((llResize 1 1 sW9 memW9 slW9 3).2 = some () →
      ∀ j, j < min 3 slW9.len →
        elemBytes 1 (llResize 1 1 sW9 memW9 slW9 3).1.2.1
            ((llResize 1 1 sW9 memW9 slW9 3).1.2.2.index * 1) j
          = elemBytes 1 memW9 (slW9.index * 1) j)) :=
  ⟨by decide, slice_resize_miss_keeps_and_success_copies 1 1 sW9 memW9 slW9 3 (by decide)⟩

/-! ## Slab free-chain invariant (C7) -/

/-- A free-chain walk is unaffected by writing a cell that is not on it. -/
theorem SChainFrom_set_not_mem {data : List SlabBlock} {o : Option Nat} {l : List Nat}
    (hc : SChainFrom data o l) (j : Nat) (b : SlabBlock) (hj : ∀ x ∈ l, x ≠ j) :
    SChainFrom (data.set j b) o l := by
  induction hc with
  | nil => exact .nil
  | @cons i nx l2 hlen hslot _ ih =>
    refine .cons (by simpa using hlen) ?_ (ih fun x hx => hj x (by simp [hx]))
    rw [getSlot_set_ne _ _ _ _ (hj i (by simp))]
    exact hslot

/-- Every index on a free-chain walk is a free (`empty`-tagged) slot. -/
theorem SChainFrom_mem_empty {data : List SlabBlock} {o : Option Nat} {l : List Nat}
    (hc : SChainFrom data o l) : ∀ x ∈ l, ∃ nx, getSlot data x = .empty nx := by
  induction hc with
  | nil => intro x hx; cases hx
  | @cons i nx l2 hlen hslot _ ih =>
    intro x hx
    rcases List.mem_cons.mp hx with rfl | hx2
    · exact ⟨nx, hslot⟩
    · exact ih x hx2

/-- A strictly ascending list of naturals all below `N` has at most `N`
entries. -/
theorem ascending_length_le (l : List Nat) (N : Nat)
    (hasc : List.Chain' (fun a b => a < b) l) (hbnd : ∀ x ∈ l, x < N) :
    l.length ≤ N := by
  have hnd : l.Nodup :=
    (List.chain'_iff_pairwise.mp hasc).imp fun hx => Nat.ne_of_lt hx
  calc l.length = l.toFinset.card := (List.toFinset_card_of_nodup hnd).symm
    _ ≤ (Finset.range N).card := Finset.card_le_card fun x hx =>
          Finset.mem_range.mpr (hbnd x (List.mem_toFinset.mp hx))
    _ = N := Finset.card_range N

/-- A successful inductive walk is computed by the fuelled walk. -/
theorem slabChainF_of_SChainFrom {data : List SlabBlock} {o : Option Nat} {l : List Nat}
    (hc : SChainFrom data o l) :
    ∀ fuel, l.length ≤ fuel → slabChainF data o fuel = some l := by
  induction hc with
  | nil => intro fuel _; cases fuel <;> rfl
  | @cons i nx l2 hlen hslot _ ih =>
    intro fuel hf
    obtain ⟨f, rfl⟩ : ∃ f, fuel = f + 1 := ⟨fuel - 1, by simp at hf; omega⟩
    have hre : readEmpty data i = nx := by rw [readEmpty, hslot]
    simp only [slabChainF, hre, ih f (by simp at hf; omega)]
    rfl

/-- The initialization ladder walked from `i` enumerates `i, …, N - 1`. -/
theorem SChainFrom_ladder (data : List SlabBlock) (N : Nat) (hlen : data.length = N)
    (hslots : ∀ j, j + 1 < N → getSlot data j = .empty (some (j + 1)))
    (hlast : 0 < N → getSlot data (N - 1) = .empty none) :
    ∀ k i, i + k = N → 0 < k → SChainFrom data (some i) (List.range' i k) := by
  intro k
  induction k with
  | zero => intro i _ h0; exact absurd h0 (by omega)
  | succ k ih =>
    intro i hik _
    by_cases hk : 0 < k
    · show SChainFrom data (some i) (i :: List.range' (i + 1) k)
      have hslot : getSlot data i = .empty (some (i + 1)) := hslots i (by omega)
      exact .cons (by omega) hslot (ih (i + 1) (by omega) hk)
    · have hk0 : k = 0 := by omega
      subst hk0
      have hi : i = N - 1 := by omega
      show SChainFrom data (some i) [i]
      refine .cons (by omega) ?_ .nil
      rw [hi]; exact hlast (by omega)

/-- The head of a fresh positive-capacity slab. -/
theorem slabInit_head (N : Nat) (h : 0 < N) : (slabInit N).head = some 0 := by
  simp [slabInit, if_pos h]

/-- Interior slots of a fresh slab link to their successor. -/
theorem slabInit_slot_mid (N i : Nat) (hi : i + 1 < N) :
    getSlot (slabInit N).data i = .empty (some (i + 1)) := by
  have h : 0 < N := by omega
  obtain ⟨flen, flt, _⟩ := slabInit_fold_spec (N - 1) (List.replicate N (.empty none))
  simp only [slabInit, if_pos h]
  rw [getSlot_set_ne _ _ _ _ (by omega), flt i (by omega)
    (by rw [List.length_replicate]; omega)]

/-- The last slot of a fresh positive-capacity slab terminates the chain. -/
theorem slabInit_slot_last (N : Nat) (h : 0 < N) :
    getSlot (slabInit N).data (N - 1) = .empty none := by
  obtain ⟨flen, _, _⟩ := slabInit_fold_spec (N - 1) (List.replicate N (.empty none))
  simp only [slabInit, if_pos h]
  rw [getSlot_set_self _ _ _ (by rw [flen, List.length_replicate]; omega)]

/-- The invariant holds on a fresh slab. -/
theorem slabInv_init (N : Nat) : SlabInv (slabInit N) [] := by
  refine ⟨?_, ?_, by simp, List.Pairwise.nil⟩
  · rw [slabInit_length]
    by_cases h : 0 < N <;> simp [slabInit, h]
  · by_cases h : 0 < N
    · refine ⟨List.range N, ?_, ?_, ?_⟩
      · rw [slabInit_head N h, List.range_eq_range']
        exact SChainFrom_ladder (slabInit N).data N (slabInit_length N)
          (fun j hj => slabInit_slot_mid N j hj) (fun h2 => slabInit_slot_last N h2)
          N 0 (by omega) h
      · exact List.chain'_iff_pairwise.mpr (List.pairwise_lt_range N)
      · intro x hx
        have := List.mem_range.mp hx
        simp only [slabInit, if_pos h]
        exact this
    · have h0 : N = 0 := by omega
      subst h0
      exact ⟨[], .nil, List.chain'_nil, by simp⟩

/-- A missed slab allocation leaves the state unchanged. -/
theorem slabAllocate_none {s : SlabState} (h : (slabAllocate s).2 = none) :
    (slabAllocate s).1 = s := by
  cases hh : s.head with
  | none => simp [slabAllocate, hh]
  | some h0 => simp [slabAllocate, hh] at h

/-- The invariant is preserved by a successful slab allocation (the handle
for the popped head index joins the live set). -/
theorem slabInv_allocSome {s : SlabState} {hs : List Nat} {i : Nat}
    (inv : SlabInv s hs) (h : (slabAllocate s).2 = some i) :
    SlabInv (slabAllocate s).1 (i :: hs) := by
  obtain ⟨l, hwalk, hasc, hbnd⟩ := inv.chain
  cases hh : s.head with
  | none => simp [slabAllocate, hh] at h
  | some h0 =>
    have hi : h0 = i := by simpa [slabAllocate, hh] using h
    subst hi
    have hstate : (slabAllocate s).1 =
        { s with head := readEmpty s.data h0, data := s.data.set h0 .full } := by
      simp [slabAllocate, hh]
    rw [hh] at hwalk
    cases hwalk with
    | @cons _ nx l2 hlen hslot hnext =>
      have hre : readEmpty s.data h0 = nx := by rw [readEmpty, hslot]
      have htail : ∀ x ∈ l2, h0 < x :=
        (List.pairwise_cons.mp (List.chain'_iff_pairwise.mp hasc)).1
      have hfull_ne : ∀ h2, getSlot s.data h2 = .full → h2 ≠ h0 := by
        intro h2 hf he
        rw [he, hslot] at hf
        cases hf
      rw [hstate]
      refine ⟨by simpa using inv.len_eq, ?_, ?_, ?_⟩
      · refine ⟨l2, ?_, hasc.tail, fun x hx => hbnd x (by simp [hx])⟩
        simp only [hre]
        exact SChainFrom_set_not_mem hnext h0 .full
          fun x hx => Nat.ne_of_gt (htail x hx)
      · intro h2 hmem
        rcases List.mem_cons.mp hmem with rfl | hmem2
        · exact ⟨hbnd h2 (by simp), getSlot_set_self _ _ _ hlen⟩
        · obtain ⟨hb, hf⟩ := inv.handles h2 hmem2
          exact ⟨hb, by rw [getSlot_set_ne _ _ _ _ (hfull_ne h2 hf)]; exact hf⟩
      · refine List.pairwise_cons.mpr ⟨?_, inv.hnodup⟩
        intro h2 hmem2
        exact Ne.symm (hfull_ne h2 (inv.handles h2 hmem2).2)

/-- Specification of the slab release loop: walking from a chain node
`current < index`, the loop splices `index` into the correct ascending
position, leaves `head`, `size` and the array length unchanged, adds only
`index` to the chain, and touches no slot other than `index` and nodes of
the walked chain. -/
theorem slabDeallocLoop_spec (s : SlabState) (i : Nat)
    (hilen : i < s.data.length) (hifull : getSlot s.data i = .full) :
    ∀ (fuel : Nat) (current : Nat) (l : List Nat),
      SChainFrom s.data (some current) (current :: l) →
      List.Chain' (fun a b => a < b) (current :: l) →
      current < i →
      l.length < fuel →
      (slabDeallocLoop s i current fuel).head = s.head ∧
      (slabDeallocLoop s i current fuel).size = s.size ∧
      (slabDeallocLoop s i current fuel).data.length = s.data.length ∧
      (∃ l2, SChainFrom (slabDeallocLoop s i current fuel).data (some current)
          (current :: l2) ∧
        List.Chain' (fun a b => a < b) (current :: l2) ∧
        ∀ x ∈ l2, x = i ∨ x ∈ l) ∧
      (∀ j, j ≠ i → ¬ j ∈ (current :: l) →
        getSlot (slabDeallocLoop s i current fuel).data j = getSlot s.data j) := by
  intro fuel
  induction fuel with
  | zero => intro current l _ _ _ hf; exact absurd hf (by omega)
  | succ f ih =>
    intro current l hwalk hasc hci hf
    cases hwalk with
    | @cons _ nx _ hclen hcslot hnext =>
      have hre : readEmpty s.data current = nx := by rw [readEmpty, hcslot]
      cases nx with
      | none =>
        cases hnext
        simp only [slabDeallocLoop, hre]
        refine ⟨by trivial, by trivial, by simp, ⟨[i], ?_, ?_, by simp⟩, ?_⟩
        · refine .cons (by simpa using hclen) ?_ (.cons (by simpa using hilen) ?_ .nil)
          · rw [getSlot_set_self _ _ _ (by simpa using hclen)]
          · rw [getSlot_set_ne _ _ _ _ (by omega),
              getSlot_set_self _ _ _ hilen]
        · exact List.chain'_cons.mpr ⟨hci, List.chain'_singleton i⟩
        · intro j hji hjm
          have hjc : j ≠ current := by simp at hjm; omega
          rw [getSlot_set_ne _ _ _ _ hjc, getSlot_set_ne _ _ _ _ hji]
      | some nxv =>
        cases hnext with
        | @cons _ nx2 l2 hnlen hnslot hnnext =>
          have hnxi : nxv ≠ i := by
            intro he; rw [he, hifull] at hnslot; cases hnslot
          by_cases hlt : i < nxv
          · simp only [slabDeallocLoop, hre, if_pos hlt]
            have htail : ∀ x ∈ nxv :: l2, current < x :=
              (List.pairwise_cons.mp (List.chain'_iff_pairwise.mp hasc)).1
            refine ⟨by trivial, by trivial, by simp,
              ⟨i :: nxv :: l2, ?_, ?_, fun x hx => by simpa using hx⟩, ?_⟩
            · have hslot_cur :
                  getSlot ((s.data.set i (.empty (some nxv))).set current
                    (.empty (some i))) current = .empty (some i) :=
                getSlot_set_self _ _ _ (by simpa using hclen)
              have hslot_i :
                  getSlot ((s.data.set i (.empty (some nxv))).set current
                    (.empty (some i))) i = .empty (some nxv) := by
                rw [getSlot_set_ne _ _ _ _ (by omega)]
                exact getSlot_set_self _ _ _ hilen
              have hwalk_nxv : SChainFrom s.data (some nxv) (nxv :: l2) :=
                .cons hnlen hnslot hnnext
              have hne_i : ∀ x ∈ nxv :: l2, x ≠ i := by
                intro x hx he
                obtain ⟨nx3, hnx3⟩ := SChainFrom_mem_empty hwalk_nxv x hx
                rw [he, hifull] at hnx3; cases hnx3
              have hne_cur : ∀ x ∈ nxv :: l2, x ≠ current :=
                fun x hx => Nat.ne_of_gt (htail x hx)
              exact .cons (by simpa using hclen) hslot_cur
                (.cons (by simpa using hilen) hslot_i
                  (SChainFrom_set_not_mem
                    (SChainFrom_set_not_mem hwalk_nxv i _ hne_i) current _ hne_cur))
            · exact List.chain'_cons.mpr ⟨hci,
                List.chain'_cons.mpr ⟨hlt, hasc.tail⟩⟩
            · intro j hji hjm
              have hjc : j ≠ current := by simp at hjm; tauto
              rw [getSlot_set_ne _ _ _ _ hjc, getSlot_set_ne _ _ _ _ hji]
          · have hni : nxv < i := by omega
            simp only [slabDeallocLoop, hre, if_neg hlt]
            have hrec := ih nxv l2 (.cons hnlen hnslot hnnext) hasc.tail hni
              (by simp at hf; omega)
            obtain ⟨hhead, hsize, hlen2, ⟨l3, hw3, hasc3, hmem3⟩, hunt⟩ := hrec
            have hcnx : current < nxv := (List.chain'_cons.mp hasc).1
            have htail : ∀ x ∈ nxv :: l2, current < x :=
              (List.pairwise_cons.mp (List.chain'_iff_pairwise.mp hasc)).1
            refine ⟨hhead, hsize, hlen2, ⟨nxv :: l3, ?_, ?_, ?_⟩, ?_⟩
            · refine .cons (by rw [hlen2]; simpa using hclen) ?_ hw3
              rw [hunt current (by omega) ?_]
              · exact hcslot
              · intro hmem
                rcases List.mem_cons.mp hmem with he | hmem2
                · omega
                · exact absurd (htail current (by simp [hmem2])) (by omega)
            · exact List.chain'_cons.mpr ⟨hcnx, hasc3⟩
            · intro x hx
              rcases List.mem_cons.mp hx with rfl | hx2
              · exact Or.inr (by simp)
              · rcases hmem3 x hx2 with he | hm
                · exact Or.inl he
                · exact Or.inr (by simp [hm])
            · intro j hji hjm
              refine hunt j hji ?_
              intro hmem
              rcases List.mem_cons.mp hmem with he | hm
              · exact hjm (by simp [he])
              · exact hjm (by simp [hm])

/-- The invariant is preserved by a slab handle drop. -/
theorem slabInv_dealloc {s : SlabState} {pre post : List Nat} {i : Nat}
    (inv : SlabInv s (pre ++ i :: post)) : SlabInv (slabDealloc s i) (pre ++ post) := by
  obtain ⟨l, hwalk, hasc, hbnd⟩ := inv.chain
  have hmemi : i ∈ pre ++ i :: post := by simp
  obtain ⟨hilt, hifull⟩ := inv.handles i hmemi
  have hilen : i < s.data.length := by rw [inv.len_eq]; exact hilt
  have hchain_ne : ∀ x ∈ l, x ≠ i := by
    intro x hx he
    obtain ⟨nx, hnx⟩ := SChainFrom_mem_empty hwalk x hx
    rw [he, hifull] at hnx
    cases hnx
  have hothers_ne : ∀ h2 ∈ pre ++ post, h2 ≠ i := by
    have hpw := inv.hnodup
    rw [List.pairwise_append] at hpw
    intro h2 hmem
    rcases List.mem_append.mp hmem with hp | hq
    · exact hpw.2.2 h2 hp i (by simp)
    · exact Ne.symm ((List.pairwise_cons.mp hpw.2.1).1 h2 hq)
  have hsub : List.Sublist (pre ++ post) (pre ++ i :: post) :=
    (List.sublist_cons_self i post).append_left pre
  have hnodup2 : List.Pairwise (fun a b => a ≠ b) (pre ++ post) :=
    inv.hnodup.sublist hsub
  have hothers : ∀ h2 ∈ pre ++ post, h2 < s.size ∧ getSlot s.data h2 = .full :=
    fun h2 hm => inv.handles h2 (hsub.mem hm)
  cases hh : s.head with
  | none =>
    rw [hh] at hwalk
    cases hwalk
    simp only [slabDealloc, hh]
    refine ⟨by simpa using inv.len_eq, ⟨[i], ?_, List.chain'_singleton i, by simpa using hilt⟩,
      ?_, hnodup2⟩
    · exact .cons (by simpa using hilen) (getSlot_set_self _ _ _ hilen) .nil
    · intro h2 hm
      obtain ⟨hb, hf⟩ := hothers h2 hm
      exact ⟨hb, by rw [getSlot_set_ne _ _ _ _ (hothers_ne h2 hm)]; exact hf⟩
  | some h0 =>
    rw [hh] at hwalk
    cases hwalk with
    | @cons _ nx0 l0 hlen0 hslot0 hnext0 =>
      have hh0i : h0 ≠ i := hchain_ne h0 (by simp)
      by_cases hlt : i < h0
      · simp only [slabDealloc, hh, if_pos hlt]
        refine ⟨by simpa using inv.len_eq,
          ⟨i :: h0 :: l0, ?_, ?_, ?_⟩, ?_, hnodup2⟩
        · refine .cons (by simpa using hilen) (getSlot_set_self _ _ _ hilen) ?_
          exact SChainFrom_set_not_mem (.cons hlen0 hslot0 hnext0) i _ hchain_ne
        · exact List.chain'_cons.mpr ⟨hlt, hasc⟩
        · intro x hx
          rcases List.mem_cons.mp hx with rfl | hx2
          · simpa using hilt
          · simpa using hbnd x hx2
        · intro h2 hm
          obtain ⟨hb, hf⟩ := hothers h2 hm
          exact ⟨by simpa using hb,
            by rw [getSlot_set_ne _ _ _ _ (hothers_ne h2 hm)]; exact hf⟩
      · have hh0lt : h0 < i := by omega
        simp only [slabDealloc, hh, if_neg hlt]
        have hllen : l0.length < s.data.length + 1 := by
          have := ascending_length_le (h0 :: l0) s.size hasc hbnd
          rw [inv.len_eq]
          simp at this
          omega
        obtain ⟨hhead, hsize, hlen2, ⟨l3, hw3, hasc3, hmem3⟩, hunt⟩ :=
          slabDeallocLoop_spec s i hilen hifull (s.data.length + 1) h0 l0
            (.cons hlen0 hslot0 hnext0) hasc hh0lt hllen
        refine ⟨by rw [hlen2, hsize]; exact inv.len_eq, ⟨h0 :: l3, ?_, hasc3, ?_⟩, ?_, hnodup2⟩
        · rw [hhead, hh]; exact hw3
        · intro x hx
          rw [hsize]
          rcases List.mem_cons.mp hx with rfl | hx2
          · exact hbnd x (by simp)
          · rcases hmem3 x hx2 with rfl | hm
            · exact hilt
            · exact hbnd x (by simp [hm])
        · intro h2 hm
          obtain ⟨hb, hf⟩ := hothers h2 hm
          refine ⟨by rw [hsize]; exact hb, ?_⟩
          rw [hunt h2 (hothers_ne h2 hm) ?_]
          · exact hf
          · intro hmem
            rcases List.mem_cons.mp hmem with he | hm2
            · rw [he, hslot0] at hf; cases hf
            · obtain ⟨nx3, hnx3⟩ := SChainFrom_mem_empty hnext0 h2 hm2
              rw [hnx3] at hf; cases hf

/-- Every reachable slab configuration satisfies the invariant. -/
theorem slabInv_of_reach {N : Nat} {s : SlabState} {hs : List Nat}
    (hr : SlabReach N s hs) : SlabInv s hs := by
  induction hr with
  | init => exact slabInv_init N
  | allocSome _ h ih => exact slabInv_allocSome ih h
  | allocNone _ h ih => rw [slabAllocate_none h]; exact ih
  | dealloc pre post i _ ih => exact slabInv_dealloc ih

/-- C7: on every reachable slab configuration, the free chain obtained by
starting at `head` and following each slot's `next_free` field terminates
and its indices are strictly ascending. -/
theorem slab_chain_ascending_of_reachable {N : Nat} {s : SlabState} {hs : List Nat}
    (hr : SlabReach N s hs) :
    ∃ l, slabChain s = some l ∧ List.Chain' (fun a b => a < b) l := by
  obtain ⟨l, hwalk, hasc, hbnd⟩ := (slabInv_of_reach hr).chain
  refine ⟨l, ?_, hasc⟩
  have hle := ascending_length_le l s.size hasc hbnd
  have hlen := (slabInv_of_reach hr).len_eq
  exact slabChainF_of_SChainFrom hwalk _ (by omega)

/-- Witness for C7: the configuration of a capacity-2 slab after one
allocation (live handle `0`) is reachable, and the theorem yields its
ascending free chain. -/
theorem slab_chain_ascending_of_reachable_witness :
    SlabReach 2 (slabAllocate (slabInit 2)).1 [0] ∧
    (∃ l, slabChain (slabAllocate (slabInit 2)).1 = some l ∧
      List.Chain' (fun a b => a < b) l) := by
  have h : (slabAllocate (slabInit 2)).2 = some 0 := by decide
  have hr : SlabReach 2 (slabAllocate (slabInit 2)).1 [0] :=
    SlabReach.allocSome SlabReach.init h
  exact ⟨hr, slab_chain_ascending_of_reachable hr⟩

/-! ## Linked-list free-list invariant (C6) -/

/-- A free-list walk is unaffected by writing a cell whose index heads no run
on it. -/
theorem ChainFrom_set_not_mem {data : List Block} {o : Option Nat} {l : List (Nat × Nat)}
    (hc : ChainFrom data o l) (j : Nat) (b : Block) (hj : ∀ p ∈ l, p.1 ≠ j) :
    ChainFrom (data.set j b) o l := by
  induction hc with
  | nil => exact .nil
  | @cons i l2 hlen hnext ih =>
    have hne : i ≠ j := hj (i, (getBlock data i).size) (by simp)
    have hgb : getBlock (data.set j b) i = getBlock data i := getBlock_set_ne _ _ _ _ hne
    have h2 : ChainFrom (data.set j b) (getBlock (data.set j b) i).next l2 := by
      rw [hgb]
      exact ih fun p hp => hj p (by simp [hp])
    have h3 : ChainFrom (data.set j b) (some i)
        ((i, (getBlock (data.set j b) i).size) :: l2) :=
      .cons (by simpa using hlen) h2
    rw [hgb] at h3
    exact h3

/-- A successful inductive free-list walk is computed by the fuelled walk. -/
theorem llChainF_of_ChainFrom {data : List Block} {o : Option Nat} {l : List (Nat × Nat)}
    (hc : ChainFrom data o l) :
    ∀ fuel, l.length ≤ fuel → llChainF data o fuel = some l := by
  induction hc with
  | nil => intro fuel _; cases fuel <;> rfl
  | @cons i l2 hlen hnext ih =>
    intro fuel hf
    obtain ⟨f, rfl⟩ : ∃ f, fuel = f + 1 := ⟨fuel - 1, by simp at hf; omega⟩
    simp only [llChainF, ih f (by simp at hf; omega)]
    rfl

/-- Dropping the first run of a well-formed run list keeps it well formed. -/
theorem RunsWf_tail {NB : Nat} {p : Nat × Nat} {l : List (Nat × Nat)}
    (h : RunsWf NB (p :: l)) : RunsWf NB l :=
  ⟨fun q hq => h.1 q (by simp [hq]), h.2.tail⟩

instance : IsTrans (Nat × Nat) (fun a b => a.1 + a.2 < b.1) :=
  ⟨fun a b c h1 h2 => by omega⟩

/-- The no-adjacency chain relation is transitive, so it holds pairwise. -/
theorem gap_pairwise {l : List (Nat × Nat)}
    (h : List.Chain' (fun a b : Nat × Nat => a.1 + a.2 < b.1) l) :
    l.Pairwise (fun a b => a.1 + a.2 < b.1) :=
  List.chain'_iff_pairwise.mp h

/-- Every run after the first one starts past the first run's end. -/
theorem gap_head_all {p : Nat × Nat} {l : List (Nat × Nat)}
    (h : List.Chain' (fun a b : Nat × Nat => a.1 + a.2 < b.1) (p :: l)) :
    ∀ q ∈ l, p.1 + p.2 < q.1 :=
  (List.pairwise_cons.mp (gap_pairwise h)).1

/-- A well-formed run list over `NB` cells has at most `NB` runs. -/
theorem runs_length_le {NB : Nat} {l : List (Nat × Nat)} (h : RunsWf NB l) :
    l.length ≤ NB := by
  have hasc : List.Chain' (fun a b => a < b) (l.map Prod.fst) := by
    rw [List.chain'_map]
    exact h.2.imp fun hab => by omega
  have hbnd : ∀ x ∈ l.map Prod.fst, x < NB := by
    intro x hx
    obtain ⟨p, hp, rfl⟩ := List.mem_map.mp hx
    have := h.1 p hp
    omega
  have := ascending_length_le (l.map Prod.fst) NB hasc hbnd
  simpa using this

/-- The invariant holds on a fresh linked-list allocator. -/
theorem llInv_init (N : Nat) : LLInv (llInit N) [] := by
  refine ⟨?_, by simp, List.Pairwise.nil⟩
  by_cases h : 0 < N
  · have hdata : (llInit N).data = (List.replicate N (Block.mk 0 none)).set 0 ⟨N, none⟩ := by
      simp [llInit, if_pos h]
    have hhead : (llInit N).head = some 0 := by
      simp [llInit, if_pos h]
    have hlen : (llInit N).data.length = N := by
      rw [hdata]; simp
    have hgb : getBlock (llInit N).data 0 = ⟨N, none⟩ := by
      rw [hdata]
      exact getBlock_set_self _ _ _ (by simp [h])
    refine ⟨[(0, N)], ?_, ⟨?_, List.chain'_singleton _⟩, by simp⟩
    · have h2 : ChainFrom (llInit N).data (getBlock (llInit N).data 0).next [] := by
        rw [hgb]
        exact .nil
      have h3 := ChainFrom.cons (by rw [hlen]; exact h) h2
      rw [hgb] at h3
      rw [hhead]
      exact h3
    · intro p hp
      rcases List.mem_singleton.mp hp with rfl
      rw [hlen]
      exact ⟨h, by omega⟩
  · have h0 : N = 0 := by omega
    subst h0
    exact ⟨[], .nil, ⟨by simp, List.chain'_nil⟩, by simp⟩

/-- For a non-zero request, `allocate` coincides with running the traversal
loop from `head` with ample fuel (the head iteration of the source is an
unrolled copy of the loop body). -/
theorem llAllocate_eq_loop (s : LLState) (n : Nat) (hn : n ≠ 0) :
    llAllocate s n = llAllocateLoop s n s.head (s.data.length + 2) := by
  simp only [llAllocate, if_neg hn]
  cases hh : s.head with
  | none => rfl
  | some i =>
    cases hc : compare n (getBlock s.data i).size with
    | eq => simp only [llAllocateLoop, hc]
    | lt => simp only [llAllocateLoop, hc]
    | gt => simp only [llAllocateLoop, hc]

/-- Specification of a successful allocation traversal: the returned handle
`(i, blocks)` is carved out of some run of the walked list, and the state
afterwards carries a walk (from its new `head`) that is still well formed,
remains disjoint from every range the walked list was disjoint from, and is
disjoint from the returned handle.  (Runs preceding the fitting one are
dropped from the walk, exactly as the source does.) -/
theorem llAllocateLoop_spec (s : LLState) (blocks : Nat) :
    ∀ (fuel : Nat) (o : Option Nat) (l : List (Nat × Nat)),
      ChainFrom s.data o l →
      RunsWf s.data.length l →
      ∀ i sz, (llAllocateLoop s blocks o fuel).2 = some (i, sz) →
        sz = blocks ∧
        (∃ run ∈ l, run.1 = i ∧ blocks ≤ run.2) ∧
        (llAllocateLoop s blocks o fuel).1.data.length = s.data.length ∧
        ∃ l2, ChainFrom (llAllocateLoop s blocks o fuel).1.data
            (llAllocateLoop s blocks o fuel).1.head l2 ∧
          RunsWf s.data.length l2 ∧
          (∀ hr : Nat × Nat, HDisj l hr → HDisj l2 hr) ∧
          HDisj l2 (i, blocks) := by
  intro fuel
  induction fuel with
  | zero => intro o l _ _ i sz he; simp [llAllocateLoop] at he
  | succ f ih =>
    intro o l hchain hwf i sz he
    cases o with
    | none => simp [llAllocateLoop] at he
    | some c =>
      cases hchain with
      | @cons _ l2 hclen hcnext =>
        cases hcmp : compare blocks (getBlock s.data c).size with
        | eq =>
          have hbe : blocks = (getBlock s.data c).size := by
            have := Nat.compare_eq_eq.mp hcmp
            omega
          have heq : llAllocateLoop s blocks (some c) (f + 1)
              = ({ s with head := (getBlock s.data c).next }, some (c, blocks)) := by
            simp only [llAllocateLoop, hcmp]
          rw [heq] at he ⊢
          simp only at he
          obtain ⟨rfl, rfl⟩ : c = i ∧ blocks = sz := by
            simpa using he
          refine ⟨rfl, ⟨(c, (getBlock s.data c).size), by simp, rfl, by omega⟩,
            rfl, l2, hcnext, RunsWf_tail hwf, ?_, ?_⟩
          · intro hr hd p hp
            exact hd p (by simp [hp])
          · intro p hp
            have := gap_head_all hwf.2 p hp
            right
            omega
        | lt =>
          have hbl : blocks < (getBlock s.data c).size := Nat.compare_eq_lt.mp hcmp
          have hbound : c + (getBlock s.data c).size ≤ s.data.length :=
            (hwf.1 (c, (getBlock s.data c).size) (by simp)).2
          have heq : llAllocateLoop s blocks (some c) (f + 1)
              = ({ head := some (c + blocks),
                   data := s.data.set (c + blocks)
                     ⟨(getBlock s.data c).size - blocks, (getBlock s.data c).next⟩ },
                 some (c, blocks)) := by
            simp only [llAllocateLoop, hcmp]
          rw [heq] at he ⊢
          simp only at he
          obtain ⟨rfl, rfl⟩ : c = i ∧ blocks = sz := by
            simpa using he
          have hlen' : (s.data.set (c + blocks)
              ⟨(getBlock s.data c).size - blocks, (getBlock s.data c).next⟩).length
              = s.data.length := by simp
          have hne : ∀ p ∈ l2, p.1 ≠ c + blocks := by
            intro p hp
            have := gap_head_all hwf.2 p hp
            omega
          have hgb : getBlock (s.data.set (c + blocks)
                ⟨(getBlock s.data c).size - blocks, (getBlock s.data c).next⟩)
              (c + blocks) = ⟨(getBlock s.data c).size - blocks, (getBlock s.data c).next⟩ :=
            getBlock_set_self _ _ _ (by omega)
          have hrest : ChainFrom (s.data.set (c + blocks)
                ⟨(getBlock s.data c).size - blocks, (getBlock s.data c).next⟩)
              (getBlock s.data c).next l2 :=
            ChainFrom_set_not_mem hcnext _ _ hne
          have hchain2 : ChainFrom (s.data.set (c + blocks)
                ⟨(getBlock s.data c).size - blocks, (getBlock s.data c).next⟩)
              (some (c + blocks))
              ((c + blocks, (getBlock s.data c).size - blocks) :: l2) := by
            have h2 := @ChainFrom.cons
              (s.data.set (c + blocks)
                ⟨(getBlock s.data c).size - blocks, (getBlock s.data c).next⟩)
              (c + blocks) l2 (by rw [hlen']; omega) (by rw [hgb]; exact hrest)
            rw [hgb] at h2
            exact h2
          refine ⟨rfl, ⟨(c, (getBlock s.data c).size), by simp, rfl, by omega⟩,
            hlen', (c + blocks, (getBlock s.data c).size - blocks) :: l2,
            hchain2, ⟨?_, ?_⟩, ?_, ?_⟩
          · intro p hp
            rcases List.mem_cons.mp hp with rfl | hp2
            · constructor
              · omega
              · simp only []
                omega
            · exact hwf.1 p (by simp [hp2])
          · refine List.chain'_cons'.mpr ⟨?_, hwf.2.tail⟩
            intro y hy
            have hmem : y ∈ l2 := List.mem_of_mem_head? hy
            have := gap_head_all hwf.2 y hmem
            simp only []
            omega
          · intro hr hd p hp
            rcases List.mem_cons.mp hp with rfl | hp2
            · have := hd (c, (getBlock s.data c).size) (by simp)
              simp only [] at this ⊢
              omega
            · exact hd p (by simp [hp2])
          · intro p hp
            rcases List.mem_cons.mp hp with rfl | hp2
            · right
              simp only []
              omega
            · have := gap_head_all hwf.2 p hp2
              right
              omega
        | gt =>
          have heq : llAllocateLoop s blocks (some c) (f + 1)
              = llAllocateLoop s blocks (getBlock s.data c).next f := by
            simp only [llAllocateLoop, hcmp]
          rw [heq] at he ⊢
          obtain ⟨hsz, ⟨run, hrm, hrun⟩, hlen, l3, hch3, hwf3, htr3, hdisj3⟩ :=
            ih (getBlock s.data c).next l2 hcnext (RunsWf_tail hwf) i sz he
          refine ⟨hsz, ⟨run, by simp [hrm], hrun⟩, hlen, l3, hch3, hwf3, ?_, hdisj3⟩
          intro hr hd
          exact htr3 hr fun p hp => hd p (by simp [hp])

/-- The invariant is preserved by a successful allocation: the returned
handle joins the live set. -/
theorem llInv_allocSome {s : LLState} {hs : List (Nat × Nat)} {n : Nat} {h : Nat × Nat}
    (inv : LLInv s hs) (he : (llAllocate s n).2 = some h) :
    LLInv (llAllocate s n).1 (h :: hs) := by
  by_cases hn : n = 0
  · subst hn
    have h2 : h = (0, 0) := by
      have h3 : some ((0 : Nat), (0 : Nat)) = some h := he
      simpa using h3.symm
    subst h2
    obtain ⟨⟨l, hch, hwf, hhd⟩, hb, hd⟩ := inv
    refine ⟨⟨l, hch, hwf, ?_⟩, ?_, ?_⟩
    · intro h2 hmem hpos
      rcases List.mem_cons.mp hmem with rfl | hmem2
      · exact absurd hpos (by omega)
      · exact hhd h2 hmem2 hpos
    · intro h2 hmem hpos
      rcases List.mem_cons.mp hmem with rfl | hmem2
      · exact absurd hpos (by omega)
      · exact hb h2 hmem2 hpos
    · refine List.pairwise_cons.mpr ⟨?_, hd⟩
      intro h2 _ hpos
      exact absurd hpos (by omega)
  · rw [llAllocate_eq_loop s n hn] at he ⊢
    obtain ⟨l, hch, hwf, hhd⟩ := inv.chain
    rcases h with ⟨i, sz⟩
    obtain ⟨rfl, ⟨run, hrm, hr1, hr2⟩, hlen, l2, hch2, hwf2, htr, hdj⟩ :=
      llAllocateLoop_spec s n _ s.head l hch hwf i sz he
    have hrun_wf := hwf.1 run hrm
    have hdisj_new : ∀ h2 ∈ hs, 0 < h2.2 → run.1 + run.2 ≤ h2.1 ∨ h2.1 + h2.2 ≤ run.1 :=
      fun h2 hm hp => hhd h2 hm hp run hrm
    refine ⟨⟨l2, hch2, by rw [hlen]; exact hwf2, ?_⟩, ?_, ?_⟩
    · intro h2 hmem hpos
      rcases List.mem_cons.mp hmem with rfl | hmem2
      · exact hdj
      · exact htr h2 (hhd h2 hmem2 hpos)
    · intro h2 hmem hpos
      rcases List.mem_cons.mp hmem with rfl | hmem2
      · rw [hlen]
        simp only [] at hr1 hr2 ⊢
        omega
      · rw [hlen]
        exact inv.hbound h2 hmem2 hpos
    · refine List.pairwise_cons.mpr ⟨?_, inv.hdisj⟩
      intro h2 hmem2 hpos hpos2
      have := hdisj_new h2 hmem2 hpos2
      simp only [RangesDisj] at this ⊢
      omega

/-- Specification of the release traversal: starting from a chain node
`current` that ends at or before the freed range `[index, index + size)`,
the loop splices the range in (coalescing with address-adjacent neighbours),
leaves `head`, the array length, and every cell below `current` other than
`index` untouched, keeps the chain well formed and starting at `current`,
and the new chain stays disjoint from every range that was disjoint from
both the old chain and the freed range. -/
theorem llDeallocLoop_spec (s : LLState) (index size : Nat)
    (hsz : 0 < size) (hie : index + size ≤ s.data.length) :
    ∀ (fuel : Nat) (current : Nat) (lfull : List (Nat × Nat)),
      ChainFrom s.data (some current) lfull →
      RunsWf s.data.length lfull →
      HDisj lfull (index, size) →
      current + (getBlock s.data current).size ≤ index →
      lfull.length ≤ fuel →
      (llDeallocLoop s index size current fuel).head = s.head ∧
      (llDeallocLoop s index size current fuel).data.length = s.data.length ∧
      (∀ j, j ≠ index → j < current →
        getBlock (llDeallocLoop s index size current fuel).data j = getBlock s.data j) ∧
      ∃ csz2 l2,
        ChainFrom (llDeallocLoop s index size current fuel).data (some current)
          ((current, csz2) :: l2) ∧
        RunsWf s.data.length ((current, csz2) :: l2) ∧
        ∀ hr : Nat × Nat, 0 < hr.2 → HDisj lfull hr →
          (index + size ≤ hr.1 ∨ hr.1 + hr.2 ≤ index) →
          HDisj ((current, csz2) :: l2) hr := by
  intro fuel
  induction fuel with
  | zero =>
    intro current lfull hch _ _ _ hf
    cases hch with
    | cons h1 h2 => simp at hf
  | succ f ih =>
    intro current lfull hch hwf hdisj hce hf
    cases hch with
    | @cons _ l' hclen hcnext =>
      have hcsz_pos : 0 < (getBlock s.data current).size :=
        (hwf.1 (current, (getBlock s.data current).size) (by simp)).1
      have hindex_lt : index < s.data.length := by omega
      cases hnx : (getBlock s.data current).next with
      | none =>
        rw [hnx] at hcnext
        cases hcnext
        by_cases hA : current + (getBlock s.data current).size = index
        · -- merge with the left neighbour, no successor
          have heq : llDeallocLoop s index size current (f + 1)
              = { s with data := (s.data.set current
                  ⟨(getBlock s.data current).size + size, (getBlock s.data current).next⟩) } := by
            simp only [llDeallocLoop, hnx]
            rw [if_pos hA]
          rw [heq]
          refine ⟨rfl, by simp, ?_, (getBlock s.data current).size + size, [], ?_, ?_, ?_⟩
          · intro j hji hjc
            exact getBlock_set_ne _ _ _ _ (by omega)
          · have hgb : getBlock (s.data.set current
                  ⟨(getBlock s.data current).size + size, (getBlock s.data current).next⟩)
                current = ⟨(getBlock s.data current).size + size, (getBlock s.data current).next⟩ :=
              getBlock_set_self _ _ _ hclen
            have h2 := @ChainFrom.cons
              (s.data.set current
                ⟨(getBlock s.data current).size + size, (getBlock s.data current).next⟩)
              current [] (by simpa using hclen)
              (by rw [hgb, hnx]; exact .nil)
            rw [hgb] at h2
            exact h2
          · exact ⟨fun p hp => by
              rcases List.mem_singleton.mp hp with rfl
              exact ⟨by omega, by simp only []; omega⟩,
              List.chain'_singleton _⟩
          · intro hr hrpos hd hside
            have h1 := hd (current, (getBlock s.data current).size) (by simp)
            intro p hp
            rcases List.mem_singleton.mp hp with rfl
            simp only [] at h1 ⊢
            omega
        · -- append at the end of the list
          have hlt : current + (getBlock s.data current).size < index := by omega
          have heq : llDeallocLoop s index size current (f + 1)
              = { s with data :=
                  ((s.data.set index ⟨size, none⟩).set current
                    ⟨(getBlock (s.data.set index ⟨size, none⟩) current).size, some index⟩) } := by
            simp only [llDeallocLoop, hnx]
            rw [if_neg hA]
          have hcur_ne : current ≠ index := by omega
          have hgb1 : getBlock (s.data.set index ⟨size, none⟩) current
              = getBlock s.data current := getBlock_set_ne _ _ _ _ hcur_ne
          rw [heq]
          refine ⟨rfl, by simp, ?_, (getBlock s.data current).size, [(index, size)],
            ?_, ?_, ?_⟩
          · intro j hji hjc
            rw [getBlock_set_ne _ _ _ _ (by omega), getBlock_set_ne _ _ _ _ hji]
          · have hgb2 : getBlock ((s.data.set index ⟨size, none⟩).set current
                  ⟨(getBlock (s.data.set index ⟨size, none⟩) current).size, some index⟩)
                current
                = ⟨(getBlock s.data current).size, some index⟩ := by
              rw [getBlock_set_self _ _ _ (by simpa using hclen), hgb1]
            have hgb3 : getBlock ((s.data.set index ⟨size, none⟩).set current
                  ⟨(getBlock (s.data.set index ⟨size, none⟩) current).size, some index⟩)
                index = ⟨size, none⟩ := by
              rw [getBlock_set_ne _ _ _ _ (Ne.symm hcur_ne),
                getBlock_set_self _ _ _ hindex_lt]
            have h3 := @ChainFrom.cons
              ((s.data.set index ⟨size, none⟩).set current
                ⟨(getBlock (s.data.set index ⟨size, none⟩) current).size, some index⟩)
              index [] (by simpa using hindex_lt) (by rw [hgb3]; exact .nil)
            rw [hgb3] at h3
            have h4 := @ChainFrom.cons
              ((s.data.set index ⟨size, none⟩).set current
                ⟨(getBlock (s.data.set index ⟨size, none⟩) current).size, some index⟩)
              current [(index, size)] (by simpa using hclen) (by rw [hgb2]; exact h3)
            rw [hgb2] at h4
            exact h4
          · refine ⟨?_, ?_⟩
            · intro p hp
              rcases List.mem_cons.mp hp with rfl | hp2
              · exact ⟨hcsz_pos, by simp only []; omega⟩
              · rcases List.mem_singleton.mp hp2 with rfl
                exact ⟨hsz, by simp only []; omega⟩
            · exact List.chain'_cons.mpr ⟨by simp only []; omega, List.chain'_singleton _⟩
          · intro hr hrpos hd hside
            have h1 := hd (current, (getBlock s.data current).size) (by simp)
            intro p hp
            rcases List.mem_cons.mp hp with rfl | hp2
            · exact h1
            · rcases List.mem_singleton.mp hp2 with rfl
              simp only [] at hside ⊢
              omega
      | some nextIndex =>
        rw [hnx] at hcnext
        cases hcnext with
        | @cons _ rest hnlen hnnext =>
          have hg : current + (getBlock s.data current).size < nextIndex :=
            (List.chain'_cons.mp hwf.2).1
          have hnsz_pos : 0 < (getBlock s.data nextIndex).size :=
            (hwf.1 (nextIndex, (getBlock s.data nextIndex).size) (by simp)).1
          have hnbound : nextIndex + (getBlock s.data nextIndex).size ≤ s.data.length :=
            (hwf.1 (nextIndex, (getBlock s.data nextIndex).size) (by simp)).2
          have hnd : nextIndex + (getBlock s.data nextIndex).size ≤ index ∨
              index + size ≤ nextIndex :=
            hdisj (nextIndex, (getBlock s.data nextIndex).size) (by simp)
          have hrest_gt : ∀ p ∈ rest, nextIndex + (getBlock s.data nextIndex).size < p.1 :=
            gap_head_all hwf.2.tail
          have hcur_all : ∀ p ∈ (nextIndex, (getBlock s.data nextIndex).size) :: rest,
              current + (getBlock s.data current).size < p.1 :=
            gap_head_all hwf.2
          by_cases hA : current + (getBlock s.data current).size = index
          · have he2 : index + size ≤ nextIndex := by
              rcases hnd with h1 | h1
              · omega
              · exact h1
            by_cases hA1 : nextIndex = index + size
            · -- merge with both neighbours
              have heq : llDeallocLoop s index size current (f + 1)
                  = { s with data :=
                      ((s.data.set current
                        ⟨(getBlock s.data current).size, (getBlock s.data nextIndex).next⟩).set
                       current
                        ⟨(getBlock (s.data.set current
                            ⟨(getBlock s.data current).size,
                             (getBlock s.data nextIndex).next⟩) current).size + size
                          + (getBlock (s.data.set current
                              ⟨(getBlock s.data current).size,
                               (getBlock s.data nextIndex).next⟩) nextIndex).size,
                         (getBlock (s.data.set current
                            ⟨(getBlock s.data current).size,
                             (getBlock s.data nextIndex).next⟩) current).next⟩) } := by
                simp only [llDeallocLoop, hnx]
                rw [if_pos hA, if_pos hA1]
              have hnc : nextIndex ≠ current := by omega
              have hgb1 : getBlock (s.data.set current
                    ⟨(getBlock s.data current).size, (getBlock s.data nextIndex).next⟩) current
                  = ⟨(getBlock s.data current).size, (getBlock s.data nextIndex).next⟩ :=
                getBlock_set_self _ _ _ hclen
              have hgb2 : getBlock (s.data.set current
                    ⟨(getBlock s.data current).size, (getBlock s.data nextIndex).next⟩) nextIndex
                  = getBlock s.data nextIndex := getBlock_set_ne _ _ _ _ hnc
              rw [heq]
              refine ⟨rfl, by simp, ?_,
                (getBlock s.data current).size + size + (getBlock s.data nextIndex).size,
                rest, ?_, ?_, ?_⟩
              · intro j hji hjc
                rw [getBlock_set_ne _ _ _ _ (by omega), getBlock_set_ne _ _ _ _ (by omega)]
              · have hgbf : getBlock ((s.data.set current
                      ⟨(getBlock s.data current).size, (getBlock s.data nextIndex).next⟩).set
                     current
                      ⟨(getBlock (s.data.set current
                          ⟨(getBlock s.data current).size,
                           (getBlock s.data nextIndex).next⟩) current).size + size
                        + (getBlock (s.data.set current
                            ⟨(getBlock s.data current).size,
                             (getBlock s.data nextIndex).next⟩) nextIndex).size,
                       (getBlock (s.data.set current
                          ⟨(getBlock s.data current).size,
                           (getBlock s.data nextIndex).next⟩) current).next⟩) current
                    = ⟨(getBlock s.data current).size + size + (getBlock s.data nextIndex).size,
                       (getBlock s.data nextIndex).next⟩ := by
                  rw [getBlock_set_self _ _ _ (by simpa using hclen), hgb1, hgb2]
                have hrest2 : ChainFrom ((s.data.set current
                      ⟨(getBlock s.data current).size, (getBlock s.data nextIndex).next⟩).set
                     current
                      ⟨(getBlock (s.data.set current
                          ⟨(getBlock s.data current).size,
                           (getBlock s.data nextIndex).next⟩) current).size + size
                        + (getBlock (s.data.set current
                            ⟨(getBlock s.data current).size,
                             (getBlock s.data nextIndex).next⟩) nextIndex).size,
                       (getBlock (s.data.set current
                          ⟨(getBlock s.data current).size,
                           (getBlock s.data nextIndex).next⟩) current).next⟩)
                    (getBlock s.data nextIndex).next rest := by
                  refine ChainFrom_set_not_mem (ChainFrom_set_not_mem hnnext _ _ ?_) _ _ ?_
                  · intro p hp
                    have := hrest_gt p hp
                    omega
                  · intro p hp
                    have := hrest_gt p hp
                    omega
                have h2 := @ChainFrom.cons
                  ((s.data.set current
                      ⟨(getBlock s.data current).size, (getBlock s.data nextIndex).next⟩).set
                     current
                      ⟨(getBlock (s.data.set current
                          ⟨(getBlock s.data current).size,
                           (getBlock s.data nextIndex).next⟩) current).size + size
                        + (getBlock (s.data.set current
                            ⟨(getBlock s.data current).size,
                             (getBlock s.data nextIndex).next⟩) nextIndex).size,
                       (getBlock (s.data.set current
                          ⟨(getBlock s.data current).size,
                           (getBlock s.data nextIndex).next⟩) current).next⟩)
                  current rest (by simpa using hclen) (by rw [hgbf]; exact hrest2)
                rw [hgbf] at h2
                exact h2
              · refine ⟨?_, ?_⟩
                · intro p hp
                  rcases List.mem_cons.mp hp with rfl | hp2
                  · exact ⟨by omega, by simp only []; omega⟩
                  · exact hwf.1 p (by simp [hp2])
                · refine List.chain'_cons'.mpr ⟨?_, hwf.2.tail.tail⟩
                  intro y hy
                  have := hrest_gt y (List.mem_of_mem_head? hy)
                  simp only []
                  omega
              · intro hr hrpos hd hside
                have h1 := hd (current, (getBlock s.data current).size) (by simp)
                have h2 := hd (nextIndex, (getBlock s.data nextIndex).size) (by simp)
                intro p hp
                rcases List.mem_cons.mp hp with rfl | hp2
                · simp only [] at h1 h2 hside ⊢
                  omega
                · exact hd p (by simp [hp2])
            · -- merge with the left neighbour only
              have he3 : index + size < nextIndex := by omega
              have heq : llDeallocLoop s index size current (f + 1)
                  = { s with data := (s.data.set current
                      ⟨(getBlock s.data current).size + size, some nextIndex⟩) } := by
                simp only [llDeallocLoop, hnx]
                rw [if_pos hA, if_neg hA1]
              rw [heq]
              refine ⟨rfl, by simp, ?_, (getBlock s.data current).size + size,
                (nextIndex, (getBlock s.data nextIndex).size) :: rest, ?_, ?_, ?_⟩
              · intro j hji hjc
                exact getBlock_set_ne _ _ _ _ (by omega)
              · have hgb : getBlock (s.data.set current
                      ⟨(getBlock s.data current).size + size, some nextIndex⟩)
                    current
                    = ⟨(getBlock s.data current).size + size, some nextIndex⟩ :=
                  getBlock_set_self _ _ _ hclen
                have hl2 : ChainFrom (s.data.set current
                      ⟨(getBlock s.data current).size + size, some nextIndex⟩)
                    (some nextIndex) ((nextIndex, (getBlock s.data nextIndex).size) :: rest) := by
                  have horig : ChainFrom s.data (some nextIndex)
                      ((nextIndex, (getBlock s.data nextIndex).size) :: rest) :=
                    .cons hnlen hnnext
                  refine ChainFrom_set_not_mem horig _ _ ?_
                  intro p hp
                  have := hcur_all p hp
                  omega
                have h2 := @ChainFrom.cons
                  (s.data.set current
                    ⟨(getBlock s.data current).size + size, some nextIndex⟩)
                  current ((nextIndex, (getBlock s.data nextIndex).size) :: rest)
                  (by simpa using hclen) (by rw [hgb]; exact hl2)
                rw [hgb] at h2
                exact h2
              · refine ⟨?_, ?_⟩
                · intro p hp
                  rcases List.mem_cons.mp hp with rfl | hp2
                  · exact ⟨by omega, by simp only []; omega⟩
                  · exact hwf.1 p (by simp [hp2])
                · refine List.chain'_cons.mpr ⟨by simp only []; omega, hwf.2.tail⟩
              · intro hr hrpos hd hside
                have h1 := hd (current, (getBlock s.data current).size) (by simp)
                intro p hp
                rcases List.mem_cons.mp hp with rfl | hp2
                · simp only [] at h1 hside ⊢
                  omega
                · exact hd p (by simp [hp2])
          · -- the freed range starts strictly after the current run
            have hlt : current + (getBlock s.data current).size < index := by omega
            have hcur_ne : current ≠ index := by omega
            by_cases hB1 : nextIndex = index + size
            · -- merge with the right neighbour
              have heq : llDeallocLoop s index size current (f + 1)
                  = { s with data :=
                      ((s.data.set index
                        ⟨size + (getBlock s.data nextIndex).size,
                         (getBlock s.data nextIndex).next⟩).set current
                        ⟨(getBlock (s.data.set index
                            ⟨size + (getBlock s.data nextIndex).size,
                             (getBlock s.data nextIndex).next⟩) current).size, some index⟩) } := by
                simp only [llDeallocLoop, hnx]
                rw [if_neg hA, if_pos hB1]
              have hgb1 : getBlock (s.data.set index
                    ⟨size + (getBlock s.data nextIndex).size,
                     (getBlock s.data nextIndex).next⟩) current
                  = getBlock s.data current := getBlock_set_ne _ _ _ _ hcur_ne
              rw [heq]
              refine ⟨rfl, by simp, ?_, (getBlock s.data current).size,
                (index, size + (getBlock s.data nextIndex).size) :: rest, ?_, ?_, ?_⟩
              · intro j hji hjc
                rw [getBlock_set_ne _ _ _ _ (by omega), getBlock_set_ne _ _ _ _ hji]
              · have hgb2 : getBlock ((s.data.set index
                      ⟨size + (getBlock s.data nextIndex).size,
                       (getBlock s.data nextIndex).next⟩).set current
                      ⟨(getBlock (s.data.set index
                          ⟨size + (getBlock s.data nextIndex).size,
                           (getBlock s.data nextIndex).next⟩) current).size, some index⟩)
                    current
                    = ⟨(getBlock s.data current).size, some index⟩ := by
                  rw [getBlock_set_self _ _ _ (by simpa using hclen), hgb1]
                have hgb3 : getBlock ((s.data.set index
                      ⟨size + (getBlock s.data nextIndex).size,
                       (getBlock s.data nextIndex).next⟩).set current
                      ⟨(getBlock (s.data.set index
                          ⟨size + (getBlock s.data nextIndex).size,
                           (getBlock s.data nextIndex).next⟩) current).size, some index⟩)
                    index
                    = ⟨size + (getBlock s.data nextIndex).size,
                       (getBlock s.data nextIndex).next⟩ := by
                  rw [getBlock_set_ne _ _ _ _ (Ne.symm hcur_ne),
                    getBlock_set_self _ _ _ hindex_lt]
                have hrest2 : ChainFrom ((s.data.set index
                      ⟨size + (getBlock s.data nextIndex).size,
                       (getBlock s.data nextIndex).next⟩).set current
                      ⟨(getBlock (s.data.set index
                          ⟨size + (getBlock s.data nextIndex).size,
                           (getBlock s.data nextIndex).next⟩) current).size, some index⟩)
                    (getBlock s.data nextIndex).next rest := by
                  refine ChainFrom_set_not_mem (ChainFrom_set_not_mem hnnext _ _ ?_) _ _ ?_
                  · intro p hp
                    have := hrest_gt p hp
                    omega
                  · intro p hp
                    have := hrest_gt p hp
                    omega
                have h3 := @ChainFrom.cons
                  ((s.data.set index
                      ⟨size + (getBlock s.data nextIndex).size,
                       (getBlock s.data nextIndex).next⟩).set current
                      ⟨(getBlock (s.data.set index
                          ⟨size + (getBlock s.data nextIndex).size,
                           (getBlock s.data nextIndex).next⟩) current).size, some index⟩)
                  index rest (by simpa using hindex_lt) (by rw [hgb3]; exact hrest2)
                rw [hgb3] at h3
                have h4 := @ChainFrom.cons
                  ((s.data.set index
                      ⟨size + (getBlock s.data nextIndex).size,
                       (getBlock s.data nextIndex).next⟩).set current
                      ⟨(getBlock (s.data.set index
                          ⟨size + (getBlock s.data nextIndex).size,
                           (getBlock s.data nextIndex).next⟩) current).size, some index⟩)
                  current ((index, size + (getBlock s.data nextIndex).size) :: rest)
                  (by simpa using hclen) (by rw [hgb2]; exact h3)
                rw [hgb2] at h4
                exact h4
              · refine ⟨?_, ?_⟩
                · intro p hp
                  rcases List.mem_cons.mp hp with rfl | hp2
                  · exact ⟨hcsz_pos, by simp only []; omega⟩
                  · rcases List.mem_cons.mp hp2 with rfl | hp3
                    · exact ⟨by omega, by simp only []; omega⟩
                    · exact hwf.1 p (by simp [hp3])
                · refine List.chain'_cons.mpr ⟨by simp only []; omega, ?_⟩
                  refine List.chain'_cons'.mpr ⟨?_, hwf.2.tail.tail⟩
                  intro y hy
                  have := hrest_gt y (List.mem_of_mem_head? hy)
                  simp only []
                  omega
              · intro hr hrpos hd hside
                have h1 := hd (current, (getBlock s.data current).size) (by simp)
                have h2 := hd (nextIndex, (getBlock s.data nextIndex).size) (by simp)
                intro p hp
                rcases List.mem_cons.mp hp with rfl | hp2
                · exact h1
                · rcases List.mem_cons.mp hp2 with rfl | hp3
                  · simp only [] at h2 hside ⊢
                    omega
                  · exact hd p (by simp [hp3])
            · by_cases hB2 : index + size < nextIndex
              · -- insert between current and next
                have heq : llDeallocLoop s index size current (f + 1)
                    = { s with data :=
                        ((s.data.set index ⟨size, some nextIndex⟩).set current
                          ⟨(getBlock (s.data.set index
                              ⟨size, some nextIndex⟩) current).size,
                           some index⟩) } := by
                  simp only [llDeallocLoop, hnx]
                  rw [if_neg hA, if_neg hB1, if_pos hB2]
                have hgb1 : getBlock (s.data.set index
                      ⟨size, some nextIndex⟩) current
                    = getBlock s.data current := getBlock_set_ne _ _ _ _ hcur_ne
                rw [heq]
                refine ⟨rfl, by simp, ?_, (getBlock s.data current).size,
                  (index, size) :: (nextIndex, (getBlock s.data nextIndex).size) :: rest,
                  ?_, ?_, ?_⟩
                · intro j hji hjc
                  rw [getBlock_set_ne _ _ _ _ (by omega), getBlock_set_ne _ _ _ _ hji]
                · have hgb2 : getBlock ((s.data.set index
                        ⟨size, some nextIndex⟩).set current
                        ⟨(getBlock (s.data.set index
                            ⟨size, some nextIndex⟩) current).size,
                         some index⟩) current
                      = ⟨(getBlock s.data current).size, some index⟩ := by
                    rw [getBlock_set_self _ _ _ (by simpa using hclen), hgb1]
                  have hgb3 : getBlock ((s.data.set index
                        ⟨size, some nextIndex⟩).set current
                        ⟨(getBlock (s.data.set index
                            ⟨size, some nextIndex⟩) current).size,
                         some index⟩) index
                      = ⟨size, some nextIndex⟩ := by
                    rw [getBlock_set_ne _ _ _ _ (Ne.symm hcur_ne),
                      getBlock_set_self _ _ _ hindex_lt]
                  have hl2 : ChainFrom ((s.data.set index
                        ⟨size, some nextIndex⟩).set current
                        ⟨(getBlock (s.data.set index
                            ⟨size, some nextIndex⟩) current).size,
                         some index⟩)
                      (some nextIndex)
                      ((nextIndex, (getBlock s.data nextIndex).size) :: rest) := by
                    have horig : ChainFrom s.data (some nextIndex)
                        ((nextIndex, (getBlock s.data nextIndex).size) :: rest) :=
                      .cons hnlen hnnext
                    refine ChainFrom_set_not_mem (ChainFrom_set_not_mem horig _ _ ?_) _ _ ?_
                    · intro p hp
                      rcases List.mem_cons.mp hp with rfl | hp2
                      · simp only []
                        omega
                      · have := hrest_gt p hp2
                        omega
                    · intro p hp
                      have := hcur_all p hp
                      omega
                  have h3 := @ChainFrom.cons
                    ((s.data.set index
                        ⟨size, some nextIndex⟩).set current
                        ⟨(getBlock (s.data.set index
                            ⟨size, some nextIndex⟩) current).size,
                         some index⟩)
                    index ((nextIndex, (getBlock s.data nextIndex).size) :: rest)
                    (by simpa using hindex_lt) (by rw [hgb3]; exact hl2)
                  rw [hgb3] at h3
                  have h4 := @ChainFrom.cons
                    ((s.data.set index
                        ⟨size, some nextIndex⟩).set current
                        ⟨(getBlock (s.data.set index
                            ⟨size, some nextIndex⟩) current).size,
                         some index⟩)
                    current
                    ((index, size) :: (nextIndex, (getBlock s.data nextIndex).size) :: rest)
                    (by simpa using hclen) (by rw [hgb2]; exact h3)
                  rw [hgb2] at h4
                  exact h4
                · refine ⟨?_, ?_⟩
                  · intro p hp
                    rcases List.mem_cons.mp hp with rfl | hp2
                    · exact ⟨hcsz_pos, by simp only []; omega⟩
                    · rcases List.mem_cons.mp hp2 with rfl | hp3
                      · exact ⟨hsz, by simp only []; omega⟩
                      · exact hwf.1 p (by simp [hp3])
                  · refine List.chain'_cons.mpr ⟨by simp only []; omega, ?_⟩
                    exact List.chain'_cons.mpr ⟨by simp only []; omega, hwf.2.tail⟩
                · intro hr hrpos hd hside
                  have h1 := hd (current, (getBlock s.data current).size) (by simp)
                  intro p hp
                  rcases List.mem_cons.mp hp with rfl | hp2
                  · exact h1
                  · rcases List.mem_cons.mp hp2 with rfl | hp3
                    · simp only [] at hside ⊢
                      omega
                    · exact hd p (by simp [hp3])
              · -- walk on to the next run
                have hstep : nextIndex + (getBlock s.data nextIndex).size ≤ index := by
                  rcases hnd with h1 | h1
                  · exact h1
                  · omega
                have heq : llDeallocLoop s index size current (f + 1)
                    = llDeallocLoop s index size nextIndex f := by
                  simp only [llDeallocLoop, hnx]
                  rw [if_neg hA, if_neg hB1, if_neg hB2]
                rw [heq]
                have hch2 : ChainFrom s.data (some nextIndex)
                    ((nextIndex, (getBlock s.data nextIndex).size) :: rest) :=
                  .cons hnlen hnnext
                obtain ⟨hhead2, hlen2, hunt2, csz2, l2, hw2, hwf2, htr2⟩ :=
                  ih nextIndex ((nextIndex, (getBlock s.data nextIndex).size) :: rest)
                    hch2 (RunsWf_tail hwf)
                    (fun p hp => hdisj p (by simp [hp])) hstep (by simp at hf ⊢; omega)
                refine ⟨hhead2, hlen2, ?_, (getBlock s.data current).size,
                  (nextIndex, csz2) :: l2, ?_, ?_, ?_⟩
                · intro j hji hjc
                  exact hunt2 j hji (by omega)
                · have hgb : getBlock (llDeallocLoop s index size nextIndex f).data current
                      = getBlock s.data current :=
                    hunt2 current hcur_ne (by omega)
                  have h2 := @ChainFrom.cons
                    (llDeallocLoop s index size nextIndex f).data
                    current ((nextIndex, csz2) :: l2)
                    (by rw [hlen2]; exact hclen) (by rw [hgb, hnx]; exact hw2)
                  rw [hgb] at h2
                  exact h2
                · refine ⟨?_, ?_⟩
                  · intro p hp
                    rcases List.mem_cons.mp hp with rfl | hp2
                    · exact ⟨hcsz_pos, by simp only []; omega⟩
                    · exact hwf2.1 p hp2
                  · refine List.chain'_cons'.mpr ⟨?_, hwf2.2⟩
                    intro y hy
                    have hyh : (nextIndex, csz2) = y := by
                      simpa using hy
                    subst hyh
                    simp only []
                    omega
                · intro hr hrpos hd hside
                  have h1 := hd (current, (getBlock s.data current).size) (by simp)
                  have h2 := htr2 hr hrpos (fun p hp => hd p (by simp [hp])) hside
                  intro p hp
                  rcases List.mem_cons.mp hp with rfl | hp2
                  · exact h1
                  · exact h2 p hp2

/-- The invariant is preserved by a handle drop. -/
theorem llInv_dealloc {s : LLState} {pre post : List (Nat × Nat)} {h : Nat × Nat}
    (inv : LLInv s (pre ++ h :: post)) : LLInv (llDealloc s h.1 h.2) (pre ++ post) := by
  rcases h with ⟨index, size⟩
  obtain ⟨l, hch, hwf, hhd⟩ := inv.chain
  have hsub : List.Sublist (pre ++ post) (pre ++ (index, size) :: post) :=
    (List.sublist_cons_self (index, size) post).append_left pre
  have hmem_self : (index, size) ∈ pre ++ (index, size) :: post := by simp
  have hdisj_others : ∀ h2 ∈ pre ++ post, 0 < h2.2 → 0 < size →
      index + size ≤ h2.1 ∨ h2.1 + h2.2 ≤ index := by
    have hpw := inv.hdisj
    rw [List.pairwise_append] at hpw
    intro h2 hm hp2 hps
    rcases List.mem_append.mp hm with hp | hq
    · have := hpw.2.2 h2 hp (index, size) (by simp)
      rcases this hp2 hps with x | x
      · exact Or.inr x
      · exact Or.inl x
    · have := (List.pairwise_cons.mp hpw.2.1).1 h2 hq
      exact this hps hp2
  have hfinish : ∀ (s2 : LLState) (l2 : List (Nat × Nat)),
      s2.data.length = s.data.length →
      ChainFrom s2.data s2.head l2 →
      RunsWf s.data.length l2 →
      (∀ h2 ∈ pre ++ post, 0 < h2.2 → HDisj l2 h2) →
      LLInv s2 (pre ++ post) := by
    intro s2 l2 hlen hch2 hwf2 hh2
    refine ⟨⟨l2, hch2, by rw [hlen]; exact hwf2, hh2⟩, ?_, inv.hdisj.sublist hsub⟩
    intro h2 hm hp
    rw [hlen]
    exact inv.hbound h2 (hsub.mem hm) hp
  by_cases hs0 : size = 0
  · have heq : llDealloc s index size = s := by
      simp [llDealloc, hs0]
    rw [heq]
    exact hfinish s l rfl hch hwf fun h2 hm hp => hhd h2 (hsub.mem hm) hp
  · have hsz : 0 < size := Nat.pos_of_ne_zero hs0
    have hbound_self : index + size ≤ s.data.length := inv.hbound _ hmem_self hsz
    have hdisj_self : HDisj l (index, size) := hhd _ hmem_self hsz
    have hindex_lt : index < s.data.length := by omega
    cases hh : s.head with
    | none =>
      rw [hh] at hch
      cases hch
      have heq : llDealloc s index size
          = { head := some index, data := s.data.set index ⟨size, none⟩ } := by
        simp only [llDealloc, if_neg hs0, hh]
      rw [heq]
      refine hfinish _ [(index, size)] (by simp) ?_ ?_ ?_
      · have hgb : getBlock (s.data.set index ⟨size, none⟩) index = ⟨size, none⟩ :=
          getBlock_set_self _ _ _ hindex_lt
        have h2 := @ChainFrom.cons (s.data.set index ⟨size, none⟩) index []
          (by simpa using hindex_lt) (by rw [hgb]; exact .nil)
        rw [hgb] at h2
        exact h2
      · exact ⟨fun p hp => by
          rcases List.mem_singleton.mp hp with rfl
          exact ⟨hsz, by simp only []; omega⟩, List.chain'_singleton _⟩
      · intro h2 hm hp p hpmem
        rcases List.mem_singleton.mp hpmem with rfl
        exact hdisj_others h2 hm hp hsz
    | some h0 =>
      rw [hh] at hch
      cases hch with
      | @cons _ l' h0len h0next =>
        have hg_all : ∀ p ∈ l', h0 + (getBlock s.data h0).size < p.1 :=
          gap_head_all hwf.2
        have h0sz_pos : 0 < (getBlock s.data h0).size :=
          (hwf.1 (h0, (getBlock s.data h0).size) (by simp)).1
        have h0bound : h0 + (getBlock s.data h0).size ≤ s.data.length :=
          (hwf.1 (h0, (getBlock s.data h0).size) (by simp)).2
        cases hcmp : compare (index + size) h0 with
        | eq =>
          have he : index + size = h0 := by
            have := Nat.compare_eq_eq.mp hcmp
            omega
          have heq : llDealloc s index size
              = { head := some index, data := (s.data.set index
                  ⟨size + (getBlock s.data h0).size, (getBlock s.data h0).next⟩) } := by
            simp only [llDealloc, if_neg hs0, hh, hcmp]
          rw [heq]
          have hne : ∀ p ∈ l', p.1 ≠ index := by
            intro p hp
            have := hg_all p hp
            omega
          refine hfinish _ ((index, size + (getBlock s.data h0).size) :: l') (by simp)
            ?_ ?_ ?_
          · have hgb : getBlock (s.data.set index
                  ⟨size + (getBlock s.data h0).size, (getBlock s.data h0).next⟩) index
                = ⟨size + (getBlock s.data h0).size, (getBlock s.data h0).next⟩ :=
              getBlock_set_self _ _ _ hindex_lt
            have hl2 : ChainFrom (s.data.set index
                  ⟨size + (getBlock s.data h0).size, (getBlock s.data h0).next⟩)
                (getBlock s.data h0).next l' :=
              ChainFrom_set_not_mem h0next _ _ hne
            have h2 := @ChainFrom.cons
              (s.data.set index ⟨size + (getBlock s.data h0).size, (getBlock s.data h0).next⟩)
              index l' (by simpa using hindex_lt) (by rw [hgb]; exact hl2)
            rw [hgb] at h2
            exact h2
          · refine ⟨?_, ?_⟩
            · intro p hp
              rcases List.mem_cons.mp hp with rfl | hp2
              · exact ⟨by omega, by simp only []; omega⟩
              · exact hwf.1 p (by simp [hp2])
            · refine List.chain'_cons'.mpr ⟨?_, hwf.2.tail⟩
              intro y hy
              have := hg_all y (List.mem_of_mem_head? hy)
              simp only []
              omega
          · intro h2 hm hp p hpmem
            have hd1 := hhd h2 (hsub.mem hm) hp (h0, (getBlock s.data h0).size) (by simp)
            have hd2 := hdisj_others h2 hm hp hsz
            rcases List.mem_cons.mp hpmem with rfl | hp2
            · simp only [] at hd1 hd2 ⊢
              omega
            · exact hhd h2 (hsub.mem hm) hp p (by simp [hp2])
        | lt =>
          have he : index + size < h0 := Nat.compare_eq_lt.mp hcmp
          have heq : llDealloc s index size
              = { head := some index, data := s.data.set index ⟨size, some h0⟩ } := by
            simp only [llDealloc, if_neg hs0, hh, hcmp]
          rw [heq]
          have hne : ∀ p ∈ (h0, (getBlock s.data h0).size) :: l', p.1 ≠ index := by
            intro p hp
            rcases List.mem_cons.mp hp with rfl | hp2
            · simp only []
              omega
            · have := hg_all p hp2
              omega
          refine hfinish _ ((index, size) :: (h0, (getBlock s.data h0).size) :: l')
            (by simp) ?_ ?_ ?_
          · have hgb : getBlock (s.data.set index ⟨size, some h0⟩) index
                = ⟨size, some h0⟩ := getBlock_set_self _ _ _ hindex_lt
            have hl2 : ChainFrom (s.data.set index ⟨size, some h0⟩) (some h0)
                ((h0, (getBlock s.data h0).size) :: l') :=
              ChainFrom_set_not_mem (.cons h0len h0next) _ _ hne
            have h2 := @ChainFrom.cons (s.data.set index ⟨size, some h0⟩) index
              ((h0, (getBlock s.data h0).size) :: l')
              (by simpa using hindex_lt) (by rw [hgb]; exact hl2)
            rw [hgb] at h2
            exact h2
          · refine ⟨?_, ?_⟩
            · intro p hp
              rcases List.mem_cons.mp hp with rfl | hp2
              · exact ⟨hsz, by simp only []; omega⟩
              · exact hwf.1 p (by simp [hp2])
            · exact List.chain'_cons.mpr ⟨by simp only []; omega, hwf.2⟩
          · intro h2 hm hp p hpmem
            rcases List.mem_cons.mp hpmem with rfl | hp2
            · exact hdisj_others h2 hm hp hsz
            · exact hhd h2 (hsub.mem hm) hp p (by simp [hp2])
        | gt =>
          have he : h0 < index + size := Nat.compare_eq_gt.mp hcmp
          have hce : h0 + (getBlock s.data h0).size ≤ index := by
            rcases hdisj_self (h0, (getBlock s.data h0).size) (by simp) with h1 | h1
            · exact h1
            · simp only [] at h1
              omega
          have heq : llDealloc s index size
              = llDeallocLoop s index size h0 (s.data.length + 1) := by
            simp only [llDealloc, if_neg hs0, hh, hcmp]
          rw [heq]
          have hfuel : ((h0, (getBlock s.data h0).size) :: l').length ≤ s.data.length + 1 := by
            have := runs_length_le hwf
            omega
          obtain ⟨hhead2, hlen2, _, csz2, l2, hw2, hwf2, htr2⟩ :=
            llDeallocLoop_spec s index size hsz hbound_self (s.data.length + 1) h0
              ((h0, (getBlock s.data h0).size) :: l') (.cons h0len h0next) hwf
              hdisj_self hce hfuel
          refine hfinish _ ((h0, csz2) :: l2) hlen2 ?_ hwf2 ?_
          · rw [hhead2, hh]
            exact hw2
          · intro h2 hm hp
            exact htr2 h2 hp (hhd h2 (hsub.mem hm) hp) (hdisj_others h2 hm hp hsz)

/-- Every reachable linked-list configuration satisfies the invariant. -/
theorem llInv_of_reach {N : Nat} {s : LLState} {hs : List (Nat × Nat)}
    (hr : LLReach N s hs) : LLInv s hs := by
  induction hr with
  | init => exact llInv_init N
  | allocSome n hrr he ih => exact llInv_allocSome ih he
  | allocNone n hrr he ih => rw [llAllocate_miss_eq _ _ he]; exact ih
  | dealloc pre post h hrr ih => exact llInv_dealloc ih

/-- C6: on every reachable configuration of the linked-list allocator, the
run indices read from `head` by following `next` form a terminating walk
whose indices are strictly ascending and in which no run ends exactly where
the next one begins. -/
theorem freeList_sorted_nonadjacent_of_reachable {N : Nat} {s : LLState}
    {hs : List (Nat × Nat)} (hr : LLReach N s hs) :
    ∃ l, llChain s = some l ∧
      List.Chain' (fun a b : Nat × Nat => a.1 < b.1) l ∧
      List.Chain' (fun a b : Nat × Nat => a.1 + a.2 ≠ b.1) l := by
  obtain ⟨l, hch, hwf, _⟩ := (llInv_of_reach hr).chain
  have hlen := runs_length_le hwf
  refine ⟨l, ?_, ?_, ?_⟩
  · exact llChainF_of_ChainFrom hch _ (by omega)
  · exact hwf.2.imp fun hab => by omega
  · exact hwf.2.imp fun hab => by omega

/-- Witness for C6: the reachable capacity-4 configuration `llBugBase`
(free list `[(0,1), (2,2)]`, one live handle) is fed to the theorem. -/
theorem freeList_sorted_nonadjacent_of_reachable_witness :
    LLReach 4 llBugBase [(1, 1)] ∧
    (∃ l, llChain llBugBase = some l ∧
      List.Chain' (fun a b : Nat × Nat => a.1 < b.1) l ∧
      List.Chain' (fun a b : Nat × Nat => a.1 + a.2 ≠ b.1) l) :=
  ⟨llBugBase_reachable, freeList_sorted_nonadjacent_of_reachable llBugBase_reachable⟩

end ArrayAllocators
